import Mathlib

/-! # Parallel marching squares (`tema1_par.c`)

A shallow embedding of the worker function `f`, of `update_image` and of the part
of `main` that sets the workers up, followed by the properties of the pipeline.

Conventions of the embedding.

* C `int` values that are sizes, loop counters and thread ids are `Nat`; pixel
  indices that the source computes with a subtraction are `Int`, and a read at a
  negative index fails like any other read outside the buffer.
* `unsigned char` values are `Nat`, reduced `% 256` where the source assigns an
  `int` expression to an `unsigned char`.
* Buffers are lists. Every read or write outside a buffer is undefined behaviour
  in C and is `none` here, as is a division by zero.
* The memory the threads share (the current image, the rescale target and the
  grid) is one value of `shared_state`, passed from step to step.
* A barrier is a phase boundary: all workers run a phase before any runs the
  next one. Inside a phase the workers run one after another by thread id.
-/

namespace MarchingSquares

/-! ## Constants of the source -/

def CONTOUR_CONFIG_COUNT : Nat := 16

def STEP : Nat := 8

def SIGMA : Nat := 200

def RESCALE_X : Nat := 2048

def RESCALE_Y : Nat := 2048

/-! ## Data model -/

/-- Modelled from the spec: the declaration of `ppm_pixel` is in `helpers.h`, which
is not among the sources; the three `unsigned char` channels are the fields that
`f` and `update_image` access. -/
structure ppm_pixel where
  red : Nat
  green : Nat
  blue : Nat
deriving DecidableEq

/-- Modelled from the spec: the declaration of `ppm_image` is in `helpers.h`, which
is not among the sources. `x` is the number of rows and `y` the number of pixels in
a row: the source addresses the pixel of row `r` and column `c` as
`data[r * y + c]`. -/
structure ppm_image where
  x : Nat
  y : Nat
  data : List ppm_pixel
deriving DecidableEq

/-- The memory behind the pointers of `function_arguments` that the workers
share: `image`, `new_image` and `grid`. -/
structure shared_state where
  image : ppm_image
  new_image : ppm_image
  grid : List (List Nat)
deriving DecidableEq

/-- The value fields of `function_arguments`, and `contour_map`, which no worker
writes to. -/
structure function_arguments where
  contour_map : List ppm_image
  step_x : Nat
  step_y : Nat
  thread_id : Nat
  number_threads : Nat
  sigma : Nat
deriving DecidableEq

/-! ## Loops and memory accesses -/

/-- The loop `for (i = lo; i < lo + n; i++) body`, as `for_loop body lo n`; a
failing iteration makes the loop fail. -/
def for_loop {σ : Type} (body : Nat → σ → Option σ) : Nat → Nat → σ → Option σ
  | _, 0, s => some s
  | i, n + 1, s =>
    match body i s with
    | none => none
    | some s' => for_loop body (i + 1) n s'

/-- The read `data[idx]`. -/
def read_pixel (data : List ppm_pixel) (idx : Int) : Option ppm_pixel :=
  if 0 ≤ idx then data[idx.toNat]? else none

/-- The write `data[idx] = px`. -/
def write_pixel (data : List ppm_pixel) (idx : Nat) (px : ppm_pixel) :
    Option (List ppm_pixel) :=
  if idx < data.length then some (data.set idx px) else none

/-- The read `grid[i][j]`. -/
def grid_read (grid : List (List Nat)) (i j : Nat) : Option Nat :=
  match grid[i]? with
  | none => none
  | some row => row[j]?

/-- The write `grid[i][j] = v`. -/
def grid_write (grid : List (List Nat)) (i j v : Nat) : Option (List (List Nat)) :=
  match grid[i]? with
  | none => none
  | some row => if j < row.length then some (grid.set i (row.set j v)) else none

/-! ## Work partition -/

/-- The lower bound of a worker: `thread_id * (double)total / number_threads`
converted to `int`. The product and the quotient are taken exactly, which is what
the `double` computation gives while `thread_id * total` is below `2^53`. -/
def start (thread_id total number_threads : Nat) : Nat :=
  thread_id * total / number_threads

/-- The upper bound of a worker, `(thread_id + 1) * (double)total / number_threads`
converted to `int`, with the clamp `if (end > total) end = total`. -/
def end_ (thread_id total number_threads : Nat) : Nat :=
  let e := (thread_id + 1) * total / number_threads
  if e > total then total else e

/-! ## `update_image` -/

/-- The body of the inner loop of `update_image`. -/
def update_pixel (contour : ppm_image) (x y i j : Nat) (image : ppm_image) :
    Option ppm_image :=
  let contour_pixel_index := contour.x * i + j
  let image_pixel_index := (x + i) * image.y + y + j
  match contour.data[contour_pixel_index]? with
  | none => none
  | some px =>
    match write_pixel image.data image_pixel_index px with
    | none => none
    | some data' => some { image with data := data' }

/-- The function `update_image(image, contour, x, y)`. -/
def update_image (image contour : ppm_image) (x y : Nat) : Option ppm_image :=
  for_loop
    (fun i img => for_loop (fun j img' => update_pixel contour x y i j img') 0 contour.y img)
    0 contour.x image

/-! ## The phases of `f` -/

/-- The grid bit of a pixel: `curr_color = (red + green + blue) / 3` as an
`unsigned char`, then `0` if `curr_color > sigma` and `1` otherwise. -/
def classify (curr_pixel : ppm_pixel) (sigma : Nat) : Nat :=
  let curr_color := (curr_pixel.red + curr_pixel.green + curr_pixel.blue) / 3 % 256
  if curr_color > sigma then 0 else 1

/-- One sample: read `image->data[idx]` and store its bit in `grid[i][j]`. -/
def sample_point (image : ppm_image) (sigma : Nat) (idx : Int) (i j : Nat)
    (grid : List (List Nat)) : Option (List (List Nat)) :=
  match read_pixel image.data idx with
  | none => none
  | some curr_pixel => grid_write grid i j (classify curr_pixel sigma)

/-- The first sampling loop of `f`: the sample points of rows `start .. end`. -/
def sample_interior (args : function_arguments) (image : ppm_image) (lo hi q : Nat)
    (grid : List (List Nat)) : Option (List (List Nat)) :=
  for_loop
    (fun i g => for_loop
      (fun j g' => sample_point image args.sigma
        ((i * args.step_x * image.y + j * args.step_y : Nat) : Int) i j g')
      0 q g)
    lo (hi - lo) grid

/-- The second sampling loop of `f`: `grid[i][q]` for the rows `start .. end`. -/
def sample_right (args : function_arguments) (image : ppm_image) (lo hi q : Nat)
    (grid : List (List Nat)) : Option (List (List Nat)) :=
  for_loop
    (fun i g => sample_point image args.sigma
      (((i * args.step_x * image.y + image.x : Nat) : Int) - 1) i q g)
    lo (hi - lo) grid

/-- The third sampling loop of `f`, run by thread 0: `grid[p][j]` for `j < q`. -/
def sample_bottom (args : function_arguments) (image : ppm_image) (p q : Nat)
    (grid : List (List Nat)) : Option (List (List Nat)) :=
  for_loop
    (fun j g => sample_point image args.sigma
      (((image.x : Int) - 1) * (image.y : Int) + ((j * args.step_y : Nat) : Int)) p j g)
    0 q grid

/-- The part of `f` between the rescale block and the barrier before stamping. -/
def f_sample (args : function_arguments) (st : shared_state) : Option shared_state :=
  if args.step_x = 0 ∨ args.step_y = 0 ∨ args.number_threads = 0 then none
  else
    let p := st.image.x / args.step_x
    let q := st.image.y / args.step_y
    let lo := start args.thread_id p args.number_threads
    let hi := end_ args.thread_id p args.number_threads
    match sample_interior args st.image lo hi q st.grid with
    | none => none
    | some g1 =>
      match sample_right args st.image lo hi q g1 with
      | none => none
      | some g2 =>
        if args.thread_id = 0 then
          match sample_bottom args st.image p q g2 with
          | none => none
          | some g3 => some { st with grid := g3 }
        else some { st with grid := g2 }

/-- The configuration `k` of a cell, from the values of `grid[i][j]`,
`grid[i][j + 1]`, `grid[i + 1][j + 1]` and `grid[i + 1][j]`: the sum is an `int` that
the source assigns to an `unsigned char`. -/
def contour_index (g00 g01 g11 g10 : Nat) : Nat :=
  (8 * g00 + 4 * g01 + 2 * g11 + 1 * g10) % 256

/-- The body of the stamping loop of `f` for the cell `(i, j)`. -/
def stamp_cell (args : function_arguments) (grid : List (List Nat)) (i j : Nat)
    (image : ppm_image) : Option ppm_image :=
  match grid_read grid i j, grid_read grid i (j + 1), grid_read grid (i + 1) (j + 1),
      grid_read grid (i + 1) j with
  | some g00, some g01, some g11, some g10 =>
    match args.contour_map[contour_index g00 g01 g11 g10]? with
    | none => none
    | some contour => update_image image contour (i * args.step_x) (j * args.step_y)
  | _, _, _, _ => none

/-- The stamping loop of `f` over the rows `lo .. hi`. -/
def stamp_rows (args : function_arguments) (grid : List (List Nat)) (lo hi q : Nat)
    (image : ppm_image) : Option ppm_image :=
  for_loop
    (fun i img => for_loop (fun j img' => stamp_cell args grid i j img') 0 q img)
    lo (hi - lo) image

/-- The part of `f` after the last barrier. -/
def f_stamp (args : function_arguments) (st : shared_state) : Option shared_state :=
  if args.step_x = 0 ∨ args.step_y = 0 ∨ args.number_threads = 0 then none
  else
    let p := st.image.x / args.step_x
    let q := st.image.y / args.step_y
    let lo := start args.thread_id p args.number_threads
    let hi := end_ args.thread_id p args.number_threads
    match stamp_rows args st.grid lo hi q st.image with
    | none => none
    | some image' => some { st with image := image' }

/-- The rescale loop of `f`, run when the image exceeds the threshold. The
parameter `sample_bicubic` stands for the function of that name in `helpers.c`,
which is not among the sources: applied to the image and to `i`, `j`,
`new_image->x`, `new_image->y` (from which the source computes `u` and `v`) it
gives the three bytes of `sample`. -/
def f_rescale (sample_bicubic : ppm_image → Nat → Nat → Nat → Nat → ppm_pixel)
    (args : function_arguments) (st : shared_state) : Option shared_state :=
  if args.number_threads = 0 then none
  else
    let start1 := start args.thread_id st.new_image.x args.number_threads
    let end1 := end_ args.thread_id st.new_image.x args.number_threads
    match for_loop
        (fun i data => for_loop
          (fun j data' => write_pixel data' (i * st.new_image.y + j)
            (sample_bicubic st.image i j st.new_image.x st.new_image.y))
          0 st.new_image.y data)
        start1 (end1 - start1) st.new_image.data with
    | none => none
    | some data' => some { st with new_image := { st.new_image with data := data' } }

/-! ## `main`: the workers and their phases -/

/-- The entry `arguments[i]` that `main` fills in. -/
def worker_args (contour_map : List ppm_image) (step_x step_y sigma num_threads i : Nat) :
    function_arguments :=
  { contour_map := contour_map, step_x := step_x, step_y := step_y, thread_id := i,
    number_threads := num_threads, sigma := sigma }

/-- One phase run by the workers `0 .. num_threads - 1`, one after another. -/
def run_phase (phase : function_arguments → shared_state → Option shared_state)
    (contour_map : List ppm_image) (step_x step_y sigma num_threads : Nat)
    (st : shared_state) : Option shared_state :=
  for_loop
    (fun i s => phase (worker_args contour_map step_x step_y sigma num_threads i) s)
    0 num_threads st

/-- The sampling phases followed, after the barrier, by the stamping phase. -/
def sample_and_stamp (contour_map : List ppm_image) (step_x step_y sigma num_threads : Nat)
    (st : shared_state) : Option shared_state :=
  match run_phase f_sample contour_map step_x step_y sigma num_threads st with
  | none => none
  | some st1 => run_phase f_stamp contour_map step_x step_y sigma num_threads st1

/-- The test `image->x > RESCALE_X || image->y > RESCALE_Y` of `f`. -/
def needs_rescale (image : ppm_image) : Bool :=
  decide (image.x > RESCALE_X) || decide (image.y > RESCALE_Y)

/-- The threads of `main` from creation to join, and the image `arguments[0].image`
that `main` then writes out. When the rescale block runs, every worker ends it
with `args->image = args->new_image`. -/
def run_threads (sample_bicubic : ppm_image → Nat → Nat → Nat → Nat → ppm_pixel)
    (contour_map : List ppm_image) (step_x step_y sigma num_threads : Nat)
    (st : shared_state) : Option ppm_image :=
  if num_threads = 0 then none
  else
    let scaled :=
      if needs_rescale st.image then
        match run_phase (f_rescale sample_bicubic) contour_map step_x step_y sigma
            num_threads st with
        | none => none
        | some st1 => some { st1 with image := st1.new_image }
      else some st
    match scaled with
    | none => none
    | some st2 =>
      match sample_and_stamp contour_map step_x step_y sigma num_threads st2 with
      | none => none
      | some st3 => some st3.image

/-- The shared memory as `main` sets it up: the image read from the input, the
rescale target of `RESCALE_X` by `RESCALE_Y` pixels and the grid. `malloc` does not
initialise the pixels of the target nor the cells of the grid: their contents
`new_data` and `grid` are arbitrary. -/
def main_state (image : ppm_image) (new_data : List ppm_pixel) (grid : List (List Nat)) :
    shared_state :=
  { image := image, new_image := { x := RESCALE_X, y := RESCALE_Y, data := new_data },
    grid := grid }

/-! ## Lists of steps

The loops of the source are compared through the list of steps they run. -/

/-- The steps of a list run in order; a failing step makes the run fail. -/
def run_ops {α σ : Type} (step : α → σ → Option σ) : List α → σ → Option σ
  | [], s => some s
  | a :: l, s =>
    match step a s with
    | none => none
    | some s' => run_ops step l s'

/-- The cells `(i, j)` with `lo ≤ i < lo + n` and `j < q`, row by row. -/
def cells (lo n q : Nat) : List (Nat × Nat) :=
  (List.range' lo n).flatMap (fun i => (List.range' 0 q).map (fun j => (i, j)))

/-- The pixel index read and the grid cell written by the samples of the first
sampling loop over the rows `lo .. lo + n`. -/
def interior_ops (args : function_arguments) (image : ppm_image) (lo n q : Nat) :
    List (Int × Nat × Nat) :=
  (List.range' lo n).flatMap (fun i => (List.range' 0 q).map (fun j =>
    (((i * args.step_x * image.y + j * args.step_y : Nat) : Int), i, j)))

/-- The samples of the second sampling loop over the rows `lo .. lo + n`. -/
def right_ops (args : function_arguments) (image : ppm_image) (lo n q : Nat) :
    List (Int × Nat × Nat) :=
  (List.range' lo n).flatMap (fun i =>
    [((((i * args.step_x * image.y + image.x : Nat) : Int) - 1), i, q)])

/-- The samples of the third sampling loop. -/
def bottom_ops (args : function_arguments) (image : ppm_image) (p q : Nat) :
    List (Int × Nat × Nat) :=
  (List.range' 0 q).map (fun j =>
    ((((image.x : Int) - 1) * (image.y : Int) + ((j * args.step_y : Nat) : Int)), p, j))

/-- One sample of a list of samples. -/
def run_sample (image : ppm_image) (sigma : Nat) (op : Int × Nat × Nat)
    (grid : List (List Nat)) : Option (List (List Nat)) :=
  sample_point image sigma op.1 op.2.1 op.2.2 grid

/-- All samples of one worker, in the order in which it takes them. -/
def worker_ops (args : function_arguments) (image : ppm_image) : List (Int × Nat × Nat) :=
  let p := image.x / args.step_x
  let q := image.y / args.step_y
  let lo := start args.thread_id p args.number_threads
  let hi := end_ args.thread_id p args.number_threads
  interior_ops args image lo (hi - lo) q ++ (right_ops args image lo (hi - lo) q ++
    (if args.thread_id = 0 then bottom_ops args image p q else []))

/-- All samples of the sampling phases run by `num_threads` workers, worker after
worker. -/
def phase_ops (contour_map : List ppm_image) (step_x step_y sigma num_threads : Nat)
    (image : ppm_image) : List (Int × Nat × Nat) :=
  (List.range' 0 num_threads).flatMap (fun t =>
    worker_ops (worker_args contour_map step_x step_y sigma num_threads t) image)

/-! ## Auxiliary views of the phases -/

/-- The stamping of one worker as a function of the grid and the image. -/
def stamp_worker (args : function_arguments) (grid : List (List Nat)) (image : ppm_image) :
    Option ppm_image :=
  if args.step_x = 0 ∨ args.step_y = 0 ∨ args.number_threads = 0 then none
  else
    stamp_rows args grid
      (start args.thread_id (image.x / args.step_x) args.number_threads)
      (end_ args.thread_id (image.x / args.step_x) args.number_threads)
      (image.y / args.step_y) image

/-- The pattern that the stamping loop looks up for the cell `(i, j)`. -/
def cell_pattern (args : function_arguments) (grid : List (List Nat)) (i j : Nat) :
    Option ppm_image :=
  match grid_read grid i j, grid_read grid i (j + 1), grid_read grid (i + 1) (j + 1),
      grid_read grid (i + 1) j with
  | some g00, some g01, some g11, some g10 =>
    args.contour_map[contour_index g00 g01 g11 g10]?
  | _, _, _, _ => none

/-- The pixel index that the sampling loops read for the grid cell `(i, j)`: the
second loop for the column `q`, the third loop for the row `p`, the first loop for
the other cells. -/
def sample_source (args : function_arguments) (image : ppm_image) (p q i j : Nat) : Int :=
  if j = q then ((i * args.step_x * image.y + image.x : Nat) : Int) - 1
  else if i = p then
    ((image.x : Int) - 1) * (image.y : Int) + ((j * args.step_y : Nat) : Int)
  else ((i * args.step_x * image.y + j * args.step_y : Nat) : Int)

/-! ## Shape of the grid -/

/-- The rows of two grids have the same lengths. -/
def same_shape (g g' : List (List Nat)) : Prop :=
  ∀ i : Nat, (g'[i]?).map List.length = (g[i]?).map List.length

/-- The grid has the rows `0 .. p`, and the columns `0 .. q` in every row. -/
def grid_holds (grid : List (List Nat)) (p q : Nat) : Prop :=
  p < grid.length ∧ ∀ row ∈ grid, q < row.length

/-! ## Example inputs -/

/-- Example input: the pattern number `k` of `s` by `s` pixels whose pixel of row
`a` and column `b` is `(k, a, b)`. -/
def example_pattern (s k : Nat) : ppm_image :=
  ⟨s, s, (List.range (s * s)).map (fun n => ⟨k, n / s, n % s⟩)⟩

/-- Example input: sixteen patterns of `s` by `s` pixels. -/
def example_patterns (s : Nat) : List ppm_image :=
  (List.range CONTOUR_CONFIG_COUNT).map (example_pattern s)

/-- Example input: an image of 4 rows and 4 columns with dark and light pixels. -/
def example_image : ppm_image :=
  ⟨4, 4, [⟨0, 0, 0⟩, ⟨10, 10, 10⟩, ⟨255, 255, 255⟩, ⟨250, 250, 250⟩,
          ⟨20, 20, 20⟩, ⟨30, 30, 30⟩, ⟨240, 240, 240⟩, ⟨230, 230, 230⟩,
          ⟨220, 220, 220⟩, ⟨40, 40, 40⟩, ⟨0, 0, 0⟩, ⟨210, 210, 210⟩,
          ⟨200, 200, 200⟩, ⟨255, 0, 0⟩, ⟨50, 50, 50⟩, ⟨60, 60, 60⟩]⟩

/-- Example input: the black image of 16 rows and 16 columns of the concrete
scenario. -/
def black_image : ppm_image :=
  ⟨16, 16, List.replicate 256 ⟨0, 0, 0⟩⟩

/-- Example input: a black image of 8 rows and 8 columns. -/
def dark_image : ppm_image :=
  ⟨8, 8, List.replicate 64 ⟨0, 0, 0⟩⟩

/-- Example input: an image of 8 rows and 16 columns that is black but for the
white pixel of row 0 and column 7. -/
def wide_image : ppm_image :=
  ⟨8, 16, (List.range 128).map (fun n => if n = 7 then ⟨255, 255, 255⟩ else ⟨0, 0, 0⟩)⟩

/-- Example input: a pattern of 2 rows and 3 columns with six different pixels. -/
def flat_pattern : ppm_image :=
  ⟨2, 3, [⟨1, 1, 1⟩, ⟨2, 2, 2⟩, ⟨3, 3, 3⟩, ⟨4, 4, 4⟩, ⟨5, 5, 5⟩, ⟨6, 6, 6⟩]⟩

/-- The index `image_pixel_index` that `update_image` computes for the pixel
`(i, j)` of the pattern: the position in the target buffer that it writes. -/
def image_pixel_index (image : ppm_image) (x y i j : Nat) : Nat :=
  (x + i) * image.y + y + j

/-- The positions of the target buffer that `update_image(image, contour, x, y)`
writes, in the order of its two loops. -/
def written_indices (image contour : ppm_image) (x y : Nat) : List Nat :=
  (cells 0 contour.x contour.y).map (fun c => image_pixel_index image x y c.1 c.2)

/-- The cells that a worker stamps: the rows of its range, every column. -/
def worker_cells (args : function_arguments) (image : ppm_image) : List (Nat × Nat) :=
  cells (start args.thread_id (image.x / args.step_x) args.number_threads)
    (end_ args.thread_id (image.x / args.step_x) args.number_threads -
      start args.thread_id (image.x / args.step_x) args.number_threads)
    (image.y / args.step_y)

/-- Example input: an image of 5 rows and 5 columns, darker at the top. -/
def odd_image : ppm_image :=
  ⟨5, 5, (List.range 25).map (fun n => ⟨10 * n, 10 * n, 10 * n⟩)⟩

/-- Example input: a black image of 72 rows and 8 columns. -/
def tall_image : ppm_image :=
  ⟨72, 8, List.replicate 576 ⟨0, 0, 0⟩⟩

/-! ## Loops as lists of steps -/

theorem run_ops_nil {α σ : Type} (step : α → σ → Option σ) (s : σ) :
    run_ops step [] s = some s := rfl

theorem run_ops_cons {α σ : Type} (step : α → σ → Option σ) (a : α) (l : List α) (s : σ) :
    run_ops step (a :: l) s = (step a s).bind (run_ops step l) := by
  cases h : step a s <;> simp [run_ops, h]

theorem run_ops_append {α σ : Type} (step : α → σ → Option σ) (l₁ l₂ : List α) (s : σ) :
    run_ops step (l₁ ++ l₂) s = (run_ops step l₁ s).bind (run_ops step l₂) := by
  induction l₁ generalizing s with
  | nil => simp [run_ops]
  | cons a l ih =>
    rw [List.cons_append, run_ops_cons, run_ops_cons]
    cases h : step a s with
    | none => simp
    | some s' => simp [ih]

theorem run_ops_map {α β σ : Type} (step : β → σ → Option σ) (g : α → β) (l : List α) (s : σ) :
    run_ops step (l.map g) s = run_ops (fun a => step (g a)) l s := by
  induction l generalizing s with
  | nil => rfl
  | cons a l ih =>
    rw [List.map_cons, run_ops_cons, run_ops_cons]
    cases h : step (g a) s with
    | none => simp
    | some s' => simp [ih]

theorem run_ops_flatMap {α β σ : Type} (step : β → σ → Option σ) (L : α → List β)
    (l : List α) (s : σ) :
    run_ops step (l.flatMap L) s = run_ops (fun a => run_ops step (L a)) l s := by
  induction l generalizing s with
  | nil => rfl
  | cons a l ih =>
    rw [List.flatMap_cons, run_ops_append, run_ops_cons]
    cases h : run_ops step (L a) s with
    | none => simp
    | some s' => simp [ih]

theorem run_ops_congr {α σ : Type} {step step' : α → σ → Option σ} {l : List α}
    (h : ∀ a ∈ l, ∀ s, step a s = step' a s) (s : σ) :
    run_ops step l s = run_ops step' l s := by
  induction l generalizing s with
  | nil => rfl
  | cons a l ih =>
    rw [run_ops_cons, run_ops_cons, h a (List.mem_cons_self a l) s]
    cases h' : step' a s with
    | none => simp
    | some s' =>
      simp only [Option.some_bind]
      exact ih (fun b hb => h b (List.mem_cons_of_mem a hb)) s'

theorem for_loop_eq_run_ops {σ : Type} (body : Nat → σ → Option σ) (lo n : Nat) (s : σ) :
    for_loop body lo n s = run_ops body (List.range' lo n) s := by
  induction n generalizing lo s with
  | zero => rfl
  | succ n ih =>
    rw [List.range'_succ, run_ops_cons]
    simp only [for_loop]
    cases h : body lo s with
    | none => simp
    | some s' => simp [ih]

theorem mem_cells {lo n q : Nat} {c : Nat × Nat} :
    c ∈ cells lo n q ↔ lo ≤ c.1 ∧ c.1 < lo + n ∧ c.2 < q := by
  obtain ⟨i, j⟩ := c
  simp only [cells, List.mem_flatMap, List.mem_map, List.mem_range'_1, Prod.mk.injEq]
  constructor
  · rintro ⟨a, ⟨h1, h2⟩, b, ⟨_, h3⟩, rfl, rfl⟩
    exact ⟨h1, h2, by omega⟩
  · rintro ⟨h1, h2, h3⟩
    exact ⟨i, ⟨h1, h2⟩, j, ⟨Nat.zero_le j, by omega⟩, rfl, rfl⟩

theorem nodup_cells (lo n q : Nat) : (cells lo n q).Nodup := by
  unfold cells
  rw [List.nodup_flatMap]
  refine ⟨fun i _ => ?_, ?_⟩
  · exact (List.nodup_range' 0 q).map (fun a b h => by simpa using h)
  · refine (List.nodup_range' lo n).pairwise_of_forall_ne (fun a _ b _ hab => ?_)
    intro c hca hcb
    simp only [List.mem_map] at hca hcb
    obtain ⟨_, _, rfl⟩ := hca
    obtain ⟨_, _, h⟩ := hcb
    simp at h
    omega

theorem nested_loop_eq_run_ops {σ : Type} (body : Nat → Nat → σ → Option σ)
    (lo n q : Nat) (s : σ) :
    for_loop (fun i s' => for_loop (fun j s'' => body i j s'') 0 q s') lo n s =
      run_ops (fun c => body c.1 c.2) (cells lo n q) s := by
  rw [for_loop_eq_run_ops, cells, run_ops_flatMap]
  apply run_ops_congr
  intro i _ s'
  rw [for_loop_eq_run_ops, run_ops_map]

/-- Invariant rule: a property of the processed front of the list that every
step re-establishes holds of the whole list at the end, and the run succeeds. -/
theorem run_ops_inv {α σ : Type} (step : α → σ → Option σ) (P : List α → σ → Prop)
    (l : List α) (s : σ) (h0 : P [] s)
    (hstep : ∀ pre a post s', l = pre ++ a :: post → P pre s' →
      ∃ s'', step a s' = some s'' ∧ P (pre ++ [a]) s'') :
    ∃ s', run_ops step l s = some s' ∧ P l s' := by
  suffices H : ∀ (post pre : List α) (s' : σ), l = pre ++ post → P pre s' →
      ∃ s'', run_ops step post s' = some s'' ∧ P l s'' from H l [] s rfl h0
  intro post
  induction post with
  | nil =>
    intro pre s' hl hP
    rw [List.append_nil] at hl
    exact ⟨s', rfl, hl ▸ hP⟩
  | cons a post ih =>
    intro pre s' hl hP
    obtain ⟨s'', hs, hP'⟩ := hstep pre a post s' hl hP
    obtain ⟨s3, hrun, hfin⟩ := ih (pre ++ [a]) s'' (by simp [hl]) hP'
    exact ⟨s3, by rw [run_ops_cons, hs]; exact hrun, hfin⟩

/-- Steps that commute pairwise can be run in any order. -/
theorem run_ops_perm {α σ : Type} (step : α → σ → Option σ) {l₁ l₂ : List α}
    (h : l₁.Perm l₂)
    (hcomm : ∀ a ∈ l₁, ∀ b ∈ l₁, ∀ s, (step a s).bind (step b) = (step b s).bind (step a))
    (s : σ) : run_ops step l₁ s = run_ops step l₂ s := by
  induction h generalizing s with
  | nil => rfl
  | cons a _ ih =>
    rw [run_ops_cons, run_ops_cons]
    congr 1
    funext s'
    exact ih (fun x hx y hy => hcomm x (List.mem_cons_of_mem a hx) y (List.mem_cons_of_mem a hy)) s'
  | swap a b l =>
    have hc := hcomm b (List.mem_cons_self b _) a (List.mem_cons_of_mem b (List.mem_cons_self a l)) s
    have e : ∀ (x : α) (m : List α), run_ops step (x :: m) =
        fun s' => (step x s').bind (run_ops step m) := fun x m => funext (run_ops_cons step x m)
    rw [run_ops_cons, run_ops_cons, e a l, e b l]
    have h1 : ((step b s).bind fun s' => (step a s').bind (run_ops step l)) =
        ((step b s).bind (step a)).bind (run_ops step l) := by
      cases step b s <;> simp
    have h2 : ((step a s).bind fun s' => (step b s').bind (run_ops step l)) =
        ((step a s).bind (step b)).bind (run_ops step l) := by
      cases step a s <;> simp
    rw [h1, h2, hc]
  | trans h₁ _ ih₁ ih₂ =>
    rw [ih₁ hcomm s]
    exact ih₂ (fun x hx y hy => hcomm x (h₁.mem_iff.mpr hx) y (h₁.mem_iff.mpr hy)) s

/-! ## The work partition -/

theorem start_zero (T N : Nat) : start 0 T N = 0 := by
  simp [start]

theorem start_mono (T N : Nat) {s t : Nat} (h : s ≤ t) : start s T N ≤ start t T N := by
  unfold start
  exact Nat.div_le_div_right (Nat.mul_le_mul_right T h)

theorem start_total (T N : Nat) (hN : 1 ≤ N) : start N T N = T := by
  unfold start
  exact Nat.mul_div_cancel_left T (by omega)

theorem start_le_total (T N t : Nat) (hN : 1 ≤ N) (ht : t ≤ N) : start t T N ≤ T := by
  calc start t T N ≤ start N T N := start_mono T N ht
    _ = T := start_total T N hN

theorem end_eq_start_succ (T N t : Nat) (hN : 1 ≤ N) (ht : t < N) :
    end_ t T N = start (t + 1) T N := by
  have h := start_le_total T N (t + 1) hN ht
  unfold start at h
  unfold end_ start
  simp only
  rw [if_neg (by omega)]

theorem ceil_div_eq {T N : Nat} (hN : 1 ≤ N) (hr : 0 < T % N) : (T + N - 1) / N = T / N + 1 := by
  have h := Nat.div_add_mod T N
  have hlt := Nat.mod_lt T (show N > 0 by omega)
  apply Nat.div_eq_of_lt_le
  · rw [Nat.add_mul, Nat.one_mul, Nat.mul_comm (T / N) N]
    omega
  · rw [Nat.succ_mul, Nat.add_mul, Nat.one_mul, Nat.mul_comm (T / N) N]
    omega

/-- The length of the range of a worker is the quotient `T / N` or one more, and
one more only when `N` does not divide `T`. -/
theorem range_length (N T t : Nat) (hN : 1 ≤ N) :
    (t + 1) * T / N - t * T / N = T / N ∨
      (0 < T % N ∧ (t + 1) * T / N - t * T / N = T / N + 1) := by
  have hpos : 0 < N := hN
  have h := Nat.add_div (a := t * T) (b := T) hpos
  have e : (t + 1) * T = t * T + T := by rw [Nat.add_mul, Nat.one_mul]
  rw [e, h]
  have hlt := Nat.mod_lt (t * T) (show N > 0 by omega)
  clear h
  generalize t * T / N = a
  generalize T / N = q
  generalize t * T % N = r at hlt ⊢
  generalize T % N = r'
  by_cases hc : N ≤ r + r'
  · rw [if_pos hc]
    right
    exact ⟨by omega, by omega⟩
  · rw [if_neg hc]
    left
    omega

/-! ## Grid accesses -/

theorem grid_write_some {g : List (List Nat)} {i j v : Nat} {row : List Nat}
    (hrow : g[i]? = some row) (hj : j < row.length) :
    grid_write g i j v = some (g.set i (row.set j v)) := by
  simp [grid_write, hrow, hj]

theorem grid_write_inv {g g' : List (List Nat)} {i j v : Nat}
    (h : grid_write g i j v = some g') :
    ∃ row, g[i]? = some row ∧ j < row.length ∧ g' = g.set i (row.set j v) := by
  unfold grid_write at h
  cases hrow : g[i]? with
  | none => simp [hrow] at h
  | some row =>
    simp only [hrow] at h
    split_ifs at h with hj
    exact ⟨row, rfl, hj, (Option.some.inj h).symm⟩

theorem grid_read_write {g g' : List (List Nat)} {i j v : Nat}
    (h : grid_write g i j v = some g') (i' j' : Nat) :
    grid_read g' i' j' = if i' = i ∧ j' = j then some v else grid_read g i' j' := by
  obtain ⟨row, hrow, hj, rfl⟩ := grid_write_inv h
  have hi : i < g.length := by
    rcases Nat.lt_or_ge i g.length with h | h
    · exact h
    · rw [List.getElem?_eq_none h] at hrow; cases hrow
  unfold grid_read
  by_cases hii : i' = i
  · subst hii
    rw [List.getElem?_set_self hi, hrow]
    simp only [true_and]
    by_cases hjj : j' = j
    · subst hjj
      simp [List.getElem?_set_self hj]
    · simp [hjj, List.getElem?_set_ne (Ne.symm hjj)]
  · rw [List.getElem?_set_ne (Ne.symm hii)]
    simp [hii]

theorem grid_write_comm (g : List (List Nat)) {i₁ j₁ i₂ j₂ : Nat} (v₁ v₂ : Nat)
    (hne : (i₁, j₁) ≠ (i₂, j₂)) :
    (grid_write g i₁ j₁ v₁).bind (fun g' => grid_write g' i₂ j₂ v₂) =
      (grid_write g i₂ j₂ v₂).bind (fun g' => grid_write g' i₁ j₁ v₁) := by
  by_cases hi : i₁ = i₂
  · subst hi
    have hj : j₁ ≠ j₂ := fun h => hne (by rw [h])
    cases hrow : g[i₁]? with
    | none => simp [grid_write, hrow]
    | some row =>
      have hlt : i₁ < g.length := by
        rcases Nat.lt_or_ge i₁ g.length with h | h
        · exact h
        · rw [List.getElem?_eq_none h] at hrow; cases hrow
      by_cases h1 : j₁ < row.length <;> by_cases h2 : j₂ < row.length <;>
        simp [grid_write, hrow, h1, h2, List.getElem?_set_self hlt, List.set_comm _ _ _ hj]
  · cases hrow1 : g[i₁]? with
    | none =>
      cases hrow2 : g[i₂]? with
      | none => simp [grid_write, hrow1, hrow2]
      | some row2 =>
        by_cases h2 : j₂ < row2.length <;>
          simp [grid_write, hrow1, hrow2, h2, List.getElem?_set_ne (Ne.symm hi)]
    | some row1 =>
      cases hrow2 : g[i₂]? with
      | none =>
        by_cases h1 : j₁ < row1.length <;>
          simp [grid_write, hrow1, hrow2, h1, List.getElem?_set_ne hi]
      | some row2 =>
        by_cases h1 : j₁ < row1.length <;> by_cases h2 : j₂ < row2.length <;>
          simp [grid_write, hrow1, hrow2, h1, h2, List.getElem?_set_ne hi,
            List.getElem?_set_ne (Ne.symm hi), List.set_comm _ _ _ hi]

theorem sample_point_comm (image : ppm_image) (sigma : Nat) (idx₁ idx₂ : Int)
    {i₁ j₁ i₂ j₂ : Nat} (hne : (i₁, j₁) ≠ (i₂, j₂)) (g : List (List Nat)) :
    (sample_point image sigma idx₁ i₁ j₁ g).bind (sample_point image sigma idx₂ i₂ j₂) =
      (sample_point image sigma idx₂ i₂ j₂ g).bind (sample_point image sigma idx₁ i₁ j₁) := by
  unfold sample_point
  cases h1 : read_pixel image.data idx₁ with
  | none =>
    cases h2 : read_pixel image.data idx₂ with
    | none => simp
    | some p2 =>
      simp only [Option.none_bind]
      cases grid_write g i₂ j₂ (classify p2 sigma) <;> simp
  | some p1 =>
    cases h2 : read_pixel image.data idx₂ with
    | none =>
      simp only [Option.none_bind]
      cases grid_write g i₁ j₁ (classify p1 sigma) <;> simp
    | some p2 =>
      simp only
      exact grid_write_comm g _ _ hne

/-! ## The sampling phases as lists of samples -/

theorem sample_interior_eq (args : function_arguments) (image : ppm_image) (lo hi q : Nat)
    (g : List (List Nat)) :
    sample_interior args image lo hi q g =
      run_ops (run_sample image args.sigma) (interior_ops args image lo (hi - lo) q) g := by
  unfold sample_interior interior_ops
  rw [for_loop_eq_run_ops, run_ops_flatMap]
  apply run_ops_congr
  intro i _ s
  rw [for_loop_eq_run_ops, run_ops_map]
  rfl

theorem sample_right_eq (args : function_arguments) (image : ppm_image) (lo hi q : Nat)
    (g : List (List Nat)) :
    sample_right args image lo hi q g =
      run_ops (run_sample image args.sigma) (right_ops args image lo (hi - lo) q) g := by
  unfold sample_right right_ops
  rw [for_loop_eq_run_ops, run_ops_flatMap]
  apply run_ops_congr
  intro i _ s
  rw [run_ops_cons]
  simp only [run_ops_nil, run_sample]
  cases sample_point image args.sigma (((i * args.step_x * image.y + image.x : Nat) : Int) - 1)
    i q s <;> rfl

theorem sample_bottom_eq (args : function_arguments) (image : ppm_image) (p q : Nat)
    (g : List (List Nat)) :
    sample_bottom args image p q g =
      run_ops (run_sample image args.sigma) (bottom_ops args image p q) g := by
  unfold sample_bottom bottom_ops
  rw [for_loop_eq_run_ops, run_ops_map]
  rfl

theorem f_sample_eq (args : function_arguments) (st : shared_state)
    (hx : args.step_x ≠ 0) (hy : args.step_y ≠ 0) (hn : args.number_threads ≠ 0) :
    f_sample args st =
      (run_ops (run_sample st.image args.sigma) (worker_ops args st.image) st.grid).map
        (fun g => { st with grid := g }) := by
  unfold f_sample worker_ops
  simp only [hx, hy, hn, or_self, if_false]
  rw [run_ops_append, ← sample_interior_eq]
  cases h1 : sample_interior args st.image _ _ _ st.grid with
  | none => rfl
  | some g1 =>
    simp only [Option.some_bind]
    rw [run_ops_append, ← sample_right_eq]
    cases h2 : sample_right args st.image _ _ _ g1 with
    | none => rfl
    | some g2 =>
      simp only [Option.some_bind]
      by_cases ht : args.thread_id = 0
      · simp only [ht, if_true]
        rw [← sample_bottom_eq]
        cases h3 : sample_bottom args st.image _ _ g2 <;> rfl
      · simp only [ht, if_false, run_ops_nil]
        rfl

/-- Steps that only rewrite the grid of the shared state, run on the grid alone. -/
theorem run_ops_grid {α : Type} (F : α → ppm_image → List (List Nat) → Option (List (List Nat)))
    (l : List α) (st : shared_state) :
    run_ops (fun a s => (F a s.image s.grid).map (fun g => { s with grid := g })) l st =
      (run_ops (fun a g => F a st.image g) l st.grid).map (fun g => { st with grid := g }) := by
  induction l generalizing st with
  | nil => rfl
  | cons a l ih =>
    rw [run_ops_cons, run_ops_cons]
    cases h : F a st.image st.grid with
    | none => rfl
    | some g' =>
      simp only [Option.map_some', Option.some_bind]
      rw [ih]

/-- Steps that only rewrite the image of the shared state, run on the image alone. -/
theorem run_ops_image {α : Type} (F : α → List (List Nat) → ppm_image → Option ppm_image)
    (l : List α) (st : shared_state) :
    run_ops (fun a s => (F a s.grid s.image).map (fun im => { s with image := im })) l st =
      (run_ops (fun a im => F a st.grid im) l st.image).map
        (fun im => { st with image := im }) := by
  induction l generalizing st with
  | nil => rfl
  | cons a l ih =>
    rw [run_ops_cons, run_ops_cons]
    cases h : F a st.grid st.image with
    | none => rfl
    | some g' =>
      simp only [Option.map_some', Option.some_bind]
      rw [ih]

/-- The ranges of the workers `0 .. M - 1`, put end to end, are the range from `0`
to the lower bound of worker `M`. -/
theorem chain_flatMap {β : Type} (L : Nat → List β) (T N : Nat) (hN : 1 ≤ N) (M : Nat)
    (hM : M ≤ N) :
    (List.range' 0 M).flatMap
        (fun t => (List.range' (start t T N) (end_ t T N - start t T N)).flatMap L) =
      (List.range' 0 (start M T N)).flatMap L := by
  induction M with
  | zero => simp [start_zero]
  | succ M ih =>
    have hlt : M < N := hM
    rw [List.range'_concat, List.flatMap_append, ih (by omega)]
    simp only [List.flatMap_cons, List.flatMap_nil, List.append_nil, Nat.zero_add, Nat.one_mul]
    rw [end_eq_start_succ T N M hN hlt, ← List.flatMap_append]
    have hmono := start_mono T N (show M ≤ M + 1 by omega)
    have : List.range' 0 (start M T N) ++
        List.range' (start M T N) (start (M + 1) T N - start M T N) =
        List.range' 0 (start (M + 1) T N) := by
      have h := List.range'_append 0 (start M T N) (start (M + 1) T N - start M T N) 1
      simp only [Nat.zero_add, Nat.one_mul] at h
      rw [h]
      congr 1
      omega
    rw [this]

theorem start_single (T : Nat) : start 0 T 1 = 0 := start_zero T 1

theorem end_single (T : Nat) : end_ 0 T 1 = T := by
  simp [end_]

theorem run_phase_sample_eq (cm : List ppm_image) (sx sy sigma N : Nat) (st : shared_state)
    (hx : sx ≠ 0) (hy : sy ≠ 0) (hn : N ≠ 0) :
    run_phase f_sample cm sx sy sigma N st =
      (run_ops (run_sample st.image sigma) (phase_ops cm sx sy sigma N st.image) st.grid).map
        (fun g => { st with grid := g }) := by
  unfold run_phase phase_ops
  rw [for_loop_eq_run_ops, run_ops_flatMap]
  rw [← run_ops_grid (fun t img g => run_ops (run_sample img sigma)
    (worker_ops (worker_args cm sx sy sigma N t) img) g)]
  apply run_ops_congr
  intro t _ s
  exact f_sample_eq (worker_args cm sx sy sigma N t) s hx hy hn

theorem single_worker_ops (cm : List ppm_image) (sx sy sigma : Nat) (image : ppm_image) :
    worker_ops (worker_args cm sx sy sigma 1 0) image =
      interior_ops (worker_args cm sx sy sigma 1 0) image 0 (image.x / sx) (image.y / sy) ++
        (right_ops (worker_args cm sx sy sigma 1 0) image 0 (image.x / sx) (image.y / sy) ++
          bottom_ops (worker_args cm sx sy sigma 1 0) image (image.x / sx) (image.y / sy)) := by
  simp [worker_ops, worker_args, start_single, end_single]

theorem phase_ops_single (cm : List ppm_image) (sx sy sigma : Nat) (image : ppm_image) :
    phase_ops cm sx sy sigma 1 image = worker_ops (worker_args cm sx sy sigma 1 0) image := by
  simp [phase_ops]

theorem phase_ops_perm (cm : List ppm_image) (sx sy sigma N : Nat) (image : ppm_image)
    (hN : 1 ≤ N) :
    (phase_ops cm sx sy sigma 1 image).Perm (phase_ops cm sx sy sigma N image) := by
  rw [phase_ops_single, single_worker_ops]
  unfold phase_ops worker_ops
  simp only [worker_args]
  refine List.Perm.trans ?_ (List.flatMap_append_perm _ _ _)
  have hI := chain_flatMap (fun i => (List.range' 0 (image.y / sy)).map (fun j =>
    ((((i * sx * image.y + j * sy : Nat) : Int)), i, j))) (image.x / sx) N hN N (le_refl N)
  have hR := chain_flatMap (fun i =>
    [((((i * sx * image.y + image.x : Nat) : Int) - 1), i, image.y / sy)]) (image.x / sx) N hN N
    (le_refl N)
  rw [start_total _ _ hN] at hI hR
  have hB : (List.range' 0 N).flatMap (fun t => if t = 0 then
      bottom_ops (worker_args cm sx sy sigma 1 0) image (image.x / sx) (image.y / sy) else []) =
      bottom_ops (worker_args cm sx sy sigma 1 0) image (image.x / sx) (image.y / sy) := by
    obtain ⟨n, rfl⟩ : ∃ n, N = n + 1 := ⟨N - 1, by omega⟩
    rw [List.range'_succ, List.flatMap_cons]
    simp only [if_true]
    have : ∀ (m : Nat) (X : List (Int × Nat × Nat)),
        (List.range' (0 + 1) m).flatMap (fun t => if t = 0 then X else []) = [] := by
      intro m X
      rw [List.flatMap_eq_nil_iff]
      intro t ht
      rw [List.mem_range'_1] at ht
      rw [if_neg (by omega)]
    rw [this, List.append_nil]
  apply List.Perm.append
  · unfold interior_ops
    simp only [worker_args]
    rw [hI]
  · refine List.Perm.trans ?_ (List.flatMap_append_perm _ _ _)
    apply List.Perm.append
    · unfold right_ops
      simp only [worker_args]
      rw [hR]
    · unfold bottom_ops at hB ⊢
      simp only [worker_args] at hB ⊢
      rw [hB]

theorem mem_interior_ops {args : function_arguments} {image : ppm_image} {lo n q : Nat}
    {a : Int × Nat × Nat} :
    a ∈ interior_ops args image lo n q ↔
      ∃ i j, lo ≤ i ∧ i < lo + n ∧ j < q ∧
        a = (((i * args.step_x * image.y + j * args.step_y : Nat) : Int), i, j) := by
  simp only [interior_ops, List.mem_flatMap, List.mem_map, List.mem_range'_1]
  constructor
  · rintro ⟨i, ⟨h1, h2⟩, j, ⟨_, h3⟩, rfl⟩
    exact ⟨i, j, h1, h2, by omega, rfl⟩
  · rintro ⟨i, j, h1, h2, h3, rfl⟩
    exact ⟨i, ⟨h1, h2⟩, j, ⟨Nat.zero_le j, by omega⟩, rfl⟩

theorem mem_right_ops {args : function_arguments} {image : ppm_image} {lo n q : Nat}
    {a : Int × Nat × Nat} :
    a ∈ right_ops args image lo n q ↔
      ∃ i, lo ≤ i ∧ i < lo + n ∧
        a = ((((i * args.step_x * image.y + image.x : Nat) : Int) - 1), i, q) := by
  simp only [right_ops, List.mem_flatMap, List.mem_singleton, List.mem_range'_1]
  constructor
  · rintro ⟨i, ⟨h1, h2⟩, rfl⟩
    exact ⟨i, h1, h2, rfl⟩
  · rintro ⟨i, h1, h2, rfl⟩
    exact ⟨i, ⟨h1, h2⟩, rfl⟩

theorem mem_bottom_ops {args : function_arguments} {image : ppm_image} {p q : Nat}
    {a : Int × Nat × Nat} :
    a ∈ bottom_ops args image p q ↔
      ∃ j, j < q ∧
        a = ((((image.x : Int) - 1) * (image.y : Int) + ((j * args.step_y : Nat) : Int)), p, j) := by
  simp only [bottom_ops, List.mem_map, List.mem_range'_1]
  constructor
  · rintro ⟨j, ⟨_, h⟩, rfl⟩
    exact ⟨j, by omega, rfl⟩
  · rintro ⟨j, h, rfl⟩
    exact ⟨j, ⟨Nat.zero_le j, by omega⟩, rfl⟩

/-- Two samples of the single worker that write the same grid cell are the same
sample. -/
theorem single_ops_cell_inj (cm : List ppm_image) (sx sy sigma : Nat) (image : ppm_image)
    {a b : Int × Nat × Nat}
    (ha : a ∈ phase_ops cm sx sy sigma 1 image) (hb : b ∈ phase_ops cm sx sy sigma 1 image)
    (hcell : (a.2.1, a.2.2) = (b.2.1, b.2.2)) : a = b := by
  rw [phase_ops_single, single_worker_ops] at ha hb
  simp only [List.mem_append, mem_interior_ops, mem_right_ops, mem_bottom_ops] at ha hb
  simp only [Prod.mk.injEq] at hcell
  obtain ⟨hc1, hc2⟩ := hcell
  rcases ha with ⟨i, j, _, hi, hj, rfl⟩ | ⟨i, _, hi, rfl⟩ | ⟨j, hj, rfl⟩ <;>
    rcases hb with ⟨i', j', _, hi', hj', rfl⟩ | ⟨i', _, hi', rfl⟩ | ⟨j', hj', rfl⟩ <;>
    simp only at hc1 hc2 <;>
    first
      | (subst hc1; subst hc2; rfl)
      | (subst hc1; rfl)
      | (subst hc2; rfl)
      | (exfalso; omega)

/-- The sampling phases write the same grid whatever the number of workers. -/
theorem sample_phase_eq (cm : List ppm_image) (sx sy sigma N : Nat) (st : shared_state)
    (hN : 1 ≤ N) :
    run_phase f_sample cm sx sy sigma N st = run_phase f_sample cm sx sy sigma 1 st := by
  by_cases hg : sx = 0 ∨ sy = 0
  · obtain ⟨n, rfl⟩ : ∃ n, N = n + 1 := ⟨N - 1, by omega⟩
    have h0 : ∀ M, f_sample (worker_args cm sx sy sigma M 0) st = none := by
      intro M
      rcases hg with h | h <;> simp [f_sample, worker_args, h]
    simp only [run_phase, for_loop, h0]
  · have hx : sx ≠ 0 := fun h => hg (Or.inl h)
    have hy : sy ≠ 0 := fun h => hg (Or.inr h)
    rw [run_phase_sample_eq cm sx sy sigma N st hx hy (by omega),
      run_phase_sample_eq cm sx sy sigma 1 st hx hy (by omega)]
    congr 1
    symm
    apply run_ops_perm _ (phase_ops_perm cm sx sy sigma N st.image hN)
    intro a ha b hb g
    by_cases hab : (a.2.1, a.2.2) = (b.2.1, b.2.2)
    · rw [single_ops_cell_inj cm sx sy sigma st.image ha hb hab]
    · exact sample_point_comm st.image sigma a.1 b.1 hab g

/-! ## The stamping phase as a list of cells -/

theorem chain_range (T N : Nat) (hN : 1 ≤ N) :
    (List.range' 0 N).flatMap
        (fun t => List.range' (start t T N) (end_ t T N - start t T N)) =
      List.range' 0 T := by
  have h := chain_flatMap (fun i => [i]) T N hN N (le_refl N)
  simp only [List.flatMap_singleton'] at h
  rw [h, start_total T N hN]

/-- A property that every step keeps holds at the end of a run. -/
theorem run_ops_preserves {α σ : Type} (step : α → σ → Option σ) (I : σ → Prop) (l : List α)
    (hI : ∀ a ∈ l, ∀ s s', I s → step a s = some s' → I s') (s s' : σ) (hs : I s)
    (hrun : run_ops step l s = some s') : I s' := by
  induction l generalizing s with
  | nil =>
    simp only [run_ops_nil, Option.some.injEq] at hrun
    exact hrun ▸ hs
  | cons a l ih =>
    rw [run_ops_cons] at hrun
    cases h : step a s with
    | none => simp [h] at hrun
    | some s₁ =>
      simp only [h, Option.some_bind] at hrun
      exact ih (fun b hb => hI b (List.mem_cons_of_mem a hb)) s₁
        (hI a (List.mem_cons_self a l) s s₁ hs h) hrun

/-- Two step functions that agree on the states of an invariant that the steps
keep give the same run. -/
theorem run_ops_congr_inv {α σ : Type} {step step' : α → σ → Option σ} (I : σ → Prop)
    {l : List α} (hI : ∀ a ∈ l, ∀ s s', I s → step' a s = some s' → I s')
    (h : ∀ a ∈ l, ∀ s, I s → step a s = step' a s) (s : σ) (hs : I s) :
    run_ops step l s = run_ops step' l s := by
  induction l generalizing s with
  | nil => rfl
  | cons a l ih =>
    rw [run_ops_cons, run_ops_cons, h a (List.mem_cons_self a l) s hs]
    cases h' : step' a s with
    | none => rfl
    | some s₁ =>
      simp only [Option.some_bind]
      exact ih (fun b hb => hI b (List.mem_cons_of_mem a hb))
        (fun b hb => h b (List.mem_cons_of_mem a hb)) s₁
        (hI a (List.mem_cons_self a l) s s₁ hs h')

theorem update_pixel_dims {contour image image' : ppm_image} {x y i j : Nat}
    (h : update_pixel contour x y i j image = some image') :
    image'.x = image.x ∧ image'.y = image.y := by
  unfold update_pixel at h
  simp only at h
  cases h1 : contour.data[contour.x * i + j]? with
  | none => simp [h1] at h
  | some px =>
    simp only [h1] at h
    cases h2 : write_pixel image.data ((x + i) * image.y + y + j) px with
    | none => simp [h2] at h
    | some d =>
      simp only [h2, Option.some.injEq] at h
      subst h
      exact ⟨rfl, rfl⟩

theorem update_image_eq (image contour : ppm_image) (x y : Nat) :
    update_image image contour x y =
      run_ops (fun c img => update_pixel contour x y c.1 c.2 img)
        (cells 0 contour.x contour.y) image := by
  unfold update_image
  exact nested_loop_eq_run_ops (fun i j img => update_pixel contour x y i j img) 0 contour.x
    contour.y image

theorem update_image_dims {image contour image' : ppm_image} {x y : Nat}
    (h : update_image image contour x y = some image') :
    image'.x = image.x ∧ image'.y = image.y := by
  rw [update_image_eq] at h
  refine run_ops_preserves _ (fun im => im.x = image.x ∧ im.y = image.y) _ ?_ image image'
    ⟨rfl, rfl⟩ h
  intro c _ s s' hs hstep
  have := update_pixel_dims hstep
  exact ⟨this.1.trans hs.1, this.2.trans hs.2⟩

theorem stamp_cell_dims {args : function_arguments} {grid : List (List Nat)} {i j : Nat}
    {image image' : ppm_image} (h : stamp_cell args grid i j image = some image') :
    image'.x = image.x ∧ image'.y = image.y := by
  unfold stamp_cell at h
  split at h
  · split at h
    · cases h
    · exact update_image_dims h
  · cases h

theorem stamp_rows_eq (args : function_arguments) (grid : List (List Nat)) (lo hi q : Nat)
    (image : ppm_image) :
    stamp_rows args grid lo hi q image =
      run_ops (fun c img => stamp_cell args grid c.1 c.2 img) (cells lo (hi - lo) q) image := by
  unfold stamp_rows
  exact nested_loop_eq_run_ops (fun i j img => stamp_cell args grid i j img) lo (hi - lo) q image

theorem stamp_rows_dims {args : function_arguments} {grid : List (List Nat)} {lo hi q : Nat}
    {image image' : ppm_image} (h : stamp_rows args grid lo hi q image = some image') :
    image'.x = image.x ∧ image'.y = image.y := by
  rw [stamp_rows_eq] at h
  refine run_ops_preserves _ (fun im => im.x = image.x ∧ im.y = image.y) _ ?_ image image'
    ⟨rfl, rfl⟩ h
  intro c _ s s' hs hstep
  have := stamp_cell_dims hstep
  exact ⟨this.1.trans hs.1, this.2.trans hs.2⟩

theorem f_stamp_eq (args : function_arguments) (st : shared_state) :
    f_stamp args st =
      (stamp_worker args st.grid st.image).map (fun im => { st with image := im }) := by
  unfold f_stamp stamp_worker
  split_ifs with hg
  · rfl
  · simp only
    cases stamp_rows args st.grid _ _ _ st.image <;> rfl

/-- The stamping phase of `N` workers is the stamping loop over all rows. -/
theorem run_phase_stamp_eq (cm : List ppm_image) (sx sy sigma N : Nat) (st : shared_state)
    (hx : sx ≠ 0) (hy : sy ≠ 0) (hN : 1 ≤ N) :
    run_phase f_stamp cm sx sy sigma N st =
      (stamp_rows (worker_args cm sx sy sigma 1 0) st.grid 0 (st.image.x / sx)
        (st.image.y / sy) st.image).map (fun im => { st with image := im }) := by
  unfold run_phase
  rw [for_loop_eq_run_ops]
  have h1 : run_ops (fun i s => f_stamp (worker_args cm sx sy sigma N i) s) (List.range' 0 N) st =
      run_ops (fun i s => (stamp_worker (worker_args cm sx sy sigma N i) s.grid s.image).map
        (fun im => { s with image := im })) (List.range' 0 N) st :=
    run_ops_congr (fun i _ s => f_stamp_eq _ s) st
  rw [h1, run_ops_image (fun i g im => stamp_worker (worker_args cm sx sy sigma N i) g im)]
  congr 1
  have h2 : run_ops (fun i im => stamp_worker (worker_args cm sx sy sigma N i) st.grid im)
      (List.range' 0 N) st.image =
      run_ops (fun i im => run_ops
          (fun r img => for_loop (fun j img' =>
            stamp_cell (worker_args cm sx sy sigma 1 0) st.grid r j img') 0 (st.image.y / sy) img)
          (List.range' (start i (st.image.x / sx) N)
            (end_ i (st.image.x / sx) N - start i (st.image.x / sx) N)) im)
        (List.range' 0 N) st.image := by
    apply run_ops_congr_inv (fun im => im.x = st.image.x ∧ im.y = st.image.y) _ _ st.image
      ⟨rfl, rfl⟩
    · intro i _ s s' hs hrun
      rw [← for_loop_eq_run_ops] at hrun
      have := @stamp_rows_dims (worker_args cm sx sy sigma 1 0) st.grid
        (start i (st.image.x / sx) N) (end_ i (st.image.x / sx) N)
        (st.image.y / sy) s s' hrun
      exact ⟨this.1.trans hs.1, this.2.trans hs.2⟩
    · intro i _ s hs
      have hn : N ≠ 0 := by omega
      simp only [stamp_worker, worker_args, hx, hy, hn, or_self, if_false, hs.1, hs.2]
      unfold stamp_rows
      rw [for_loop_eq_run_ops]
      rfl
  rw [h2, ← run_ops_flatMap, chain_range _ N hN]
  unfold stamp_rows
  rw [for_loop_eq_run_ops, Nat.sub_zero]

/-- The stamping phase writes the same image whatever the number of workers. -/
theorem stamp_phase_eq (cm : List ppm_image) (sx sy sigma N : Nat) (st : shared_state)
    (hN : 1 ≤ N) :
    run_phase f_stamp cm sx sy sigma N st = run_phase f_stamp cm sx sy sigma 1 st := by
  by_cases hg : sx = 0 ∨ sy = 0
  · obtain ⟨n, rfl⟩ : ∃ n, N = n + 1 := ⟨N - 1, by omega⟩
    have h0 : ∀ M, f_stamp (worker_args cm sx sy sigma M 0) st = none := by
      intro M
      rcases hg with h | h <;> simp [f_stamp, worker_args, h]
    simp only [run_phase, for_loop, h0]
  · have hx : sx ≠ 0 := fun h => hg (Or.inl h)
    have hy : sy ≠ 0 := fun h => hg (Or.inr h)
    rw [run_phase_stamp_eq cm sx sy sigma N st hx hy hN,
      run_phase_stamp_eq cm sx sy sigma 1 st hx hy (le_refl 1)]

/-! ## What `update_image` and the stamping loop write -/

theorem row_col_inj {W r r' c c' : Nat} (hc : c < W) (hc' : c' < W)
    (h : r * W + c = r' * W + c') : r = r' ∧ c = c' := by
  have hr : r = r' := by
    rcases Nat.lt_trichotomy r r' with hlt | heq | hgt
    · exfalso
      have h1 : (r + 1) * W ≤ r' * W := Nat.mul_le_mul_right W hlt
      rw [Nat.add_mul, Nat.one_mul] at h1
      omega
    · exact heq
    · exfalso
      have h1 : (r' + 1) * W ≤ r * W := Nat.mul_le_mul_right W hgt
      rw [Nat.add_mul, Nat.one_mul] at h1
      omega
  subst hr
  exact ⟨rfl, by omega⟩

theorem split_nodup {α : Type} {l pre post : List α} {a : α} (hl : l = pre ++ a :: post)
    (hnd : l.Nodup) : a ∉ pre ∧ a ∈ l ∧ ∀ c ∈ pre, c ∈ l := by
  subst hl
  refine ⟨?_, by simp, fun c hc => List.mem_append_left _ hc⟩
  intro ha
  rw [List.nodup_append] at hnd
  exact hnd.2.2 ha (List.mem_cons_self a post)

theorem update_pixel_some {contour image : ppm_image} {x y i j : Nat} {px : ppm_pixel}
    (hread : contour.data[contour.x * i + j]? = some px)
    (hwrite : (x + i) * image.y + y + j < image.data.length) :
    update_pixel contour x y i j image =
      some { image with data := image.data.set ((x + i) * image.y + y + j) px } := by
  simp [update_pixel, write_pixel, hread, hwrite]

/-- What `update_image` does when its reads and writes are inside the buffers and
the columns `y .. y + contour.y` are columns of the image: it returns, keeps the
dimensions, leaves the pixel `(x + i, y + j)` equal to `contour.data[contour.x * i + j]`
for `i < contour.x`, `j < contour.y`, and changes no other pixel. -/
theorem update_image_spec (image contour : ppm_image) (x y : Nat)
    (hread : ∀ i j, i < contour.x → j < contour.y → contour.x * i + j < contour.data.length)
    (hcol : y + contour.y ≤ image.y)
    (hrow : (x + contour.x) * image.y ≤ image.data.length) :
    ∃ image', update_image image contour x y = some image' ∧
      image'.x = image.x ∧ image'.y = image.y ∧
      image'.data.length = image.data.length ∧
      (∀ i j, i < contour.x → j < contour.y →
        image'.data[(x + i) * image.y + y + j]? = contour.data[contour.x * i + j]?) ∧
      (∀ n, (∀ i j, i < contour.x → j < contour.y → n ≠ (x + i) * image.y + y + j) →
        image'.data[n]? = image.data[n]?) := by
  rw [update_image_eq]
  obtain ⟨img', hrun, h1, h2, h3, h4, h5⟩ := run_ops_inv
    (fun (c : Nat × Nat) (img : ppm_image) => update_pixel contour x y c.1 c.2 img)
    (fun (pre : List (Nat × Nat)) (img : ppm_image) => img.x = image.x ∧ img.y = image.y ∧
      img.data.length = image.data.length ∧
      (∀ c ∈ pre, img.data[(x + c.1) * image.y + y + c.2]? =
        contour.data[contour.x * c.1 + c.2]?) ∧
      (∀ n, (∀ c ∈ pre, n ≠ (x + c.1) * image.y + y + c.2) → img.data[n]? = image.data[n]?))
    (cells 0 contour.x contour.y) image
    ⟨rfl, rfl, rfl, fun c hc => absurd hc (List.not_mem_nil c), fun n _ => rfl⟩
    (by
      intro pre a post s hl ⟨hx, hy, hlen, hdone, hframe⟩
      obtain ⟨hnot, hmem, hpre⟩ := split_nodup hl (nodup_cells 0 contour.x contour.y)
      rw [mem_cells] at hmem
      obtain ⟨_, ha1, ha2⟩ := hmem
      rw [Nat.zero_add] at ha1
      have hcr := hread a.1 a.2 ha1 ha2
      obtain ⟨px, hpx⟩ : ∃ px, contour.data[contour.x * a.1 + a.2]? = some px :=
        ⟨_, List.getElem?_eq_getElem hcr⟩
      have hidx : (x + a.1) * image.y + y + a.2 < image.data.length := by
        have h1 : (x + a.1 + 1) * image.y ≤ (x + contour.x) * image.y :=
          Nat.mul_le_mul_right _ (by omega)
        rw [Nat.add_mul, Nat.one_mul] at h1
        omega
      refine ⟨_, @update_pixel_some contour s x y a.1 a.2 px hpx (by rw [hy, hlen]; exact hidx), hx, hy,
        by simp [hlen], ?_, ?_⟩
      · intro c hc
        rw [List.mem_append, List.mem_singleton] at hc
        simp only [hy]
        rcases hc with hc | rfl
        · have hcm := hpre c hc
          rw [mem_cells] at hcm
          have hne : (x + a.1) * image.y + y + a.2 ≠ (x + c.1) * image.y + y + c.2 := by
            intro heq
            have := @row_col_inj image.y (x + a.1) (x + c.1) (y + a.2) (y + c.2) (by omega)
              (by omega) (by omega)
            apply hnot
            have hca : c = a := Prod.ext (by omega) (by omega)
            rw [← hca]
            exact hc
          rw [List.getElem?_set_ne hne]
          exact hdone c hc
        · rw [List.getElem?_set_self (by rw [hlen]; exact hidx), hpx]
      · intro n hn
        simp only [hy]
        have hne : (x + a.1) * image.y + y + a.2 ≠ n :=
          fun h => hn a (by simp) h.symm
        rw [List.getElem?_set_ne hne]
        exact hframe n (fun c hc => hn c (List.mem_append_left _ hc)))
  refine ⟨img', hrun, h1, h2, h3, ?_, ?_⟩
  · intro i j hi hj
    exact h4 (i, j) (mem_cells.mpr ⟨Nat.zero_le i, by simpa using hi, hj⟩)
  · intro n hn
    apply h5
    intro c hc
    rw [mem_cells] at hc
    exact hn c.1 c.2 (by omega) hc.2.2

theorem stamp_cell_eq (args : function_arguments) (grid : List (List Nat)) (i j : Nat)
    (image : ppm_image) :
    stamp_cell args grid i j image =
      (cell_pattern args grid i j).bind
        (fun contour => update_image image contour (i * args.step_x) (j * args.step_y)) := by
  unfold stamp_cell cell_pattern
  generalize grid_read grid i j = r1
  generalize grid_read grid i (j + 1) = r2
  generalize grid_read grid (i + 1) (j + 1) = r3
  generalize grid_read grid (i + 1) j = r4
  cases r1 <;> cases r2 <;> cases r3 <;> cases r4 <;> try rfl
  rename_i g00 g01 g11 g10
  simp only
  cases args.contour_map[contour_index g00 g01 g11 g10]? <;> rfl

theorem cell_bound {i p s : Nat} (h : i < p) : i * s + s ≤ p * s := by
  have h1 : (i + 1) * s ≤ p * s := Nat.mul_le_mul_right s h
  rw [Nat.add_mul, Nat.one_mul] at h1
  exact h1

/-- Pixels of two different cells of the stamping loop are different pixels. -/
theorem cell_pixel_inj {W sx sy q i j a b i' j' a' b' : Nat}
    (hW : q * sy ≤ W) (hj : j < q) (hj' : j' < q) (ha : a < sx) (ha' : a' < sx)
    (hb : b < sy) (hb' : b' < sy)
    (h : (i * sx + a) * W + j * sy + b = (i' * sx + a') * W + j' * sy + b') :
    i = i' ∧ j = j' ∧ a = a' ∧ b = b' := by
  have hc := cell_bound (s := sy) hj
  have hc' := cell_bound (s := sy) hj'
  obtain ⟨hr, hcol⟩ := @row_col_inj W (i * sx + a) (i' * sx + a') (j * sy + b) (j' * sy + b')
    (by omega) (by omega) (by omega)
  obtain ⟨h1, h2⟩ := row_col_inj (W := sx) ha ha' hr
  obtain ⟨h3, h4⟩ := row_col_inj (W := sy) hb hb' hcol
  exact ⟨h1, h3, h2, h4⟩

/-- What the stamping loop over the rows `0 .. p` does when every cell has a
pattern of `step_x` by `step_y` pixels that `update_image` can read and the cells
lie inside the image: it returns, keeps the dimensions, leaves in the cell `(i, j)`
the pixels that `update_image` copies from the pattern of the cell, and changes no
pixel outside the cells. -/
theorem stamp_rows_spec (args : function_arguments) (grid : List (List Nat))
    (image : ppm_image) (p q : Nat)
    (hrows : p * args.step_x * image.y ≤ image.data.length)
    (hcols : q * args.step_y ≤ image.y)
    (hpat : ∀ i j, i < p → j < q → ∃ pat, cell_pattern args grid i j = some pat ∧
      pat.x = args.step_x ∧ pat.y = args.step_y ∧
      ∀ a b, a < pat.x → b < pat.y → pat.x * a + b < pat.data.length) :
    ∃ image', stamp_rows args grid 0 p q image = some image' ∧
      image'.x = image.x ∧ image'.y = image.y ∧
      image'.data.length = image.data.length ∧
      (∀ i j pat, i < p → j < q → cell_pattern args grid i j = some pat →
        ∀ a b, a < args.step_x → b < args.step_y →
          image'.data[(i * args.step_x + a) * image.y + j * args.step_y + b]? =
            pat.data[args.step_x * a + b]?) ∧
      (∀ n, (∀ i j a b, i < p → j < q → a < args.step_x → b < args.step_y →
          n ≠ (i * args.step_x + a) * image.y + j * args.step_y + b) →
        image'.data[n]? = image.data[n]?) := by
  rw [stamp_rows_eq, Nat.sub_zero]
  obtain ⟨img', hrun, h1, h2, h3, h4, h5⟩ := run_ops_inv
    (fun (c : Nat × Nat) (img : ppm_image) => stamp_cell args grid c.1 c.2 img)
    (fun (pre : List (Nat × Nat)) (img : ppm_image) => img.x = image.x ∧ img.y = image.y ∧
      img.data.length = image.data.length ∧
      (∀ c ∈ pre, ∀ pat, cell_pattern args grid c.1 c.2 = some pat →
        ∀ a b, a < args.step_x → b < args.step_y →
          img.data[(c.1 * args.step_x + a) * image.y + c.2 * args.step_y + b]? =
            pat.data[args.step_x * a + b]?) ∧
      (∀ n, (∀ c ∈ pre, ∀ a b, a < args.step_x → b < args.step_y →
          n ≠ (c.1 * args.step_x + a) * image.y + c.2 * args.step_y + b) →
        img.data[n]? = image.data[n]?))
    (cells 0 p q) image
    ⟨rfl, rfl, rfl, fun c hc => absurd hc (List.not_mem_nil c), fun n _ => rfl⟩
    (by
      intro pre c post s hl ⟨hx, hy, hlen, hdone, hframe⟩
      obtain ⟨hnot, hmem, hpre⟩ := split_nodup hl (nodup_cells 0 p q)
      rw [mem_cells] at hmem
      obtain ⟨_, hc1, hc2⟩ := hmem
      rw [Nat.zero_add] at hc1
      obtain ⟨pat, hcp, hpx, hpy, hpr⟩ := hpat c.1 c.2 hc1 hc2
      have hb1 := cell_bound (s := args.step_x) hc1
      have hb2 := cell_bound (s := args.step_y) hc2
      obtain ⟨s', hup, hx', hy', hlen', hcopy, hrest⟩ := update_image_spec s pat
        (c.1 * args.step_x) (c.2 * args.step_y) hpr (by rw [hpy, hy]; omega) (by
          rw [hpx, hy, hlen]
          exact le_trans (Nat.mul_le_mul_right _ hb1) hrows)
      refine ⟨s', by show stamp_cell args grid c.1 c.2 s = some s'; rw [stamp_cell_eq, hcp]; exact hup, hx'.trans hx, hy'.trans hy,
        hlen'.trans hlen, ?_, ?_⟩
      · intro d hd pat' hpat' a b ha hb
        rw [List.mem_append, List.mem_singleton] at hd
        rcases hd with hd | rfl
        · rw [hrest, hdone d hd pat' hpat' a b ha hb]
          intro i j hi hj heq
          rw [hy] at heq
          have hdm := hpre d hd
          rw [mem_cells] at hdm
          have := @cell_pixel_inj image.y args.step_x args.step_y q _ _ _ _ _ _ _ _ hcols
            hdm.2.2 hc2 ha (by omega) hb (by omega) heq
          apply hnot
          have hdc : d = c := Prod.ext this.1 this.2.1
          rw [← hdc]
          exact hd
        · rw [hcp] at hpat'
          cases hpat'
          have := hcopy a b (by omega) (by omega)
          rw [hy, hpx] at this
          exact this
      · intro n hn
        rw [hrest, hframe n (fun d hd => hn d (List.mem_append_left _ hd))]
        intro i j hi hj
        rw [hy]
        exact hn c (by simp) i j (by omega) (by omega))
  refine ⟨img', hrun, h1, h2, h3, ?_, ?_⟩
  · intro i j pat hi hj hp a b ha hb
    exact h4 (i, j) (mem_cells.mpr ⟨Nat.zero_le i, by simpa using hi, hj⟩) pat hp a b ha hb
  · intro n hn
    apply h5
    intro c hc a b ha hb
    rw [mem_cells] at hc
    exact hn c.1 c.2 a b (by omega) hc.2.2 ha hb

/-! ## What the sampling phases write -/

theorem same_shape_refl (g : List (List Nat)) : same_shape g g := fun _ => rfl

theorem same_shape_write {g g₁ g₂ : List (List Nat)} {i j v : Nat} (hs : same_shape g g₁)
    (hw : grid_write g₁ i j v = some g₂) : same_shape g g₂ := by
  obtain ⟨row, hrow, hj, rfl⟩ := grid_write_inv hw
  have hi : i < g₁.length := by
    rcases Nat.lt_or_ge i g₁.length with h | h
    · exact h
    · rw [List.getElem?_eq_none h] at hrow; cases hrow
  intro i'
  rw [← hs i']
  by_cases hii : i = i'
  · subst hii
    rw [List.getElem?_set_self hi, hrow]
    simp
  · rw [List.getElem?_set_ne hii]

theorem grid_write_of_shape {g g₁ : List (List Nat)} {i j : Nat} (v : Nat)
    (hs : same_shape g g₁) {row : List Nat} (hrow : g[i]? = some row) (hj : j < row.length) :
    ∃ g₂, grid_write g₁ i j v = some g₂ := by
  have h := hs i
  rw [hrow] at h
  cases h1 : g₁[i]? with
  | none => rw [h1] at h; cases h
  | some row1 =>
    rw [h1] at h
    simp only [Option.map_some', Option.some.injEq] at h
    exact ⟨_, grid_write_some h1 (by omega)⟩

/-- What a list of samples writes. Each sample reads the pixel at the index
`src i j` that belongs to its cell `(i, j)`; when the reads and the writes are
inside the buffers, the run returns a grid of the same shape in which every
sampled cell holds the bit of its pixel and every other cell is as before. -/
theorem sample_ops_spec (image : ppm_image) (sigma : Nat) (ops : List (Int × Nat × Nat))
    (src : Nat → Nat → Int) (g : List (List Nat))
    (hsrc : ∀ a ∈ ops, a.1 = src a.2.1 a.2.2)
    (hread : ∀ a ∈ ops, ∃ px, read_pixel image.data a.1 = some px)
    (hwrite : ∀ a ∈ ops, ∃ row, g[a.2.1]? = some row ∧ a.2.2 < row.length) :
    ∃ g', run_ops (run_sample image sigma) ops g = some g' ∧ same_shape g g' ∧
      (∀ i j, (∃ a ∈ ops, a.2.1 = i ∧ a.2.2 = j) →
        grid_read g' i j = (read_pixel image.data (src i j)).map (fun px => classify px sigma)) ∧
      (∀ i j, (∀ a ∈ ops, ¬ (a.2.1 = i ∧ a.2.2 = j)) → grid_read g' i j = grid_read g i j) := by
  apply run_ops_inv (run_sample image sigma)
    (fun (pre : List (Int × Nat × Nat)) (s : List (List Nat)) => same_shape g s ∧
      (∀ i j, (∃ a ∈ pre, a.2.1 = i ∧ a.2.2 = j) →
        grid_read s i j = (read_pixel image.data (src i j)).map (fun px => classify px sigma)) ∧
      (∀ i j, (∀ a ∈ pre, ¬ (a.2.1 = i ∧ a.2.2 = j)) → grid_read s i j = grid_read g i j))
    ops g
  · exact ⟨same_shape_refl g, fun i j ⟨a, ha, _⟩ => absurd ha (List.not_mem_nil a),
      fun i j _ => rfl⟩
  · intro pre a post s hl ⟨hshape, hA, hB⟩
    have ha : a ∈ ops := by rw [hl]; simp
    obtain ⟨px, hpx⟩ := hread a ha
    obtain ⟨row, hrow, hj⟩ := hwrite a ha
    obtain ⟨s', hs'⟩ := grid_write_of_shape (classify px sigma) hshape hrow hj
    have hstep : run_sample image sigma a s = some s' := by
      simp only [run_sample, sample_point, hpx, hs']
    refine ⟨s', hstep, same_shape_write hshape hs', ?_, ?_⟩
    · intro i j ⟨b, hb, hbi, hbj⟩
      rw [grid_read_write hs']
      by_cases hcell : i = a.2.1 ∧ j = a.2.2
      · rw [if_pos hcell, hcell.1, hcell.2, ← hsrc a ha, hpx]
        rfl
      · rw [if_neg hcell]
        rw [List.mem_append, List.mem_singleton] at hb
        rcases hb with hb | rfl
        · exact hA i j ⟨b, hb, hbi, hbj⟩
        · exact absurd ⟨hbi.symm, hbj.symm⟩ hcell
    · intro i j hnone
      rw [grid_read_write hs']
      have hcell : ¬ (i = a.2.1 ∧ j = a.2.2) := fun h =>
        hnone a (by simp) ⟨h.1.symm, h.2.symm⟩
      rw [if_neg hcell]
      exact hB i j (fun b hb => hnone b (List.mem_append_left _ hb))

theorem read_pixel_nat (data : List ppm_pixel) (n : Nat) :
    read_pixel data (n : Int) = data[n]? := by
  simp [read_pixel]

theorem div_mul_step {x s i : Nat} (hi : i < x / s) : i * s + s ≤ x :=
  le_trans (cell_bound hi) (Nat.div_mul_le_self x s)

theorem interior_in_bounds {x y sx sy i j : Nat} (hsx : 0 < sx) (hsy : 0 < sy)
    (hi : i < x / sx) (hj : j < y / sy) : i * sx * y + j * sy < x * y := by
  have h1 := div_mul_step hi
  have h2 := div_mul_step hj
  have h3 : (i * sx + 1) * y ≤ x * y := Nat.mul_le_mul_right y (by omega)
  rw [Nat.add_mul, Nat.one_mul] at h3
  omega

theorem bottom_in_bounds {x y sy j : Nat} (hx : 0 < x) (hsy : 0 < sy) (hj : j < y / sy) :
    (x - 1) * y + j * sy < x * y := by
  have h2 := div_mul_step hj
  have h3 : (x - 1 + 1) * y = x * y := by rw [Nat.sub_add_cancel hx]
  rw [Nat.add_mul, Nat.one_mul] at h3
  omega

/-- An image that has at most `step_x` times as many rows as columns keeps the
reads of the second sampling loop inside its buffer. -/
theorem right_in_bounds {x y sx i : Nat} (hthin : x ≤ sx * y)
    (hi : i < x / sx) : i * sx * y + x ≤ x * y := by
  have h1 := div_mul_step hi
  have h3 : (i * sx + sx) * y ≤ x * y := Nat.mul_le_mul_right y h1
  rw [Nat.add_mul] at h3
  omega

theorem grid_holds_row {g : List (List Nat)} {p q i : Nat} (h : grid_holds g p q)
    (hi : i ≤ p) : ∃ row, g[i]? = some row ∧ q < row.length := by
  have hlt : i < g.length := by have := h.1; omega
  exact ⟨g[i], List.getElem?_eq_getElem hlt, h.2 _ (List.getElem_mem hlt)⟩

theorem grid_read_of_shape {g g' : List (List Nat)} {p q i j : Nat} (h : grid_holds g p q)
    (hs : same_shape g g') (hi : i ≤ p) (hj : j ≤ q) : ∃ v, grid_read g' i j = some v := by
  obtain ⟨row, hrow, hq⟩ := grid_holds_row h hi
  have h1 := hs i
  rw [hrow] at h1
  cases h2 : g'[i]? with
  | none => rw [h2] at h1; cases h1
  | some row' =>
    rw [h2] at h1
    simp only [Option.map_some', Option.some.injEq] at h1
    have hlt : j < row'.length := by omega
    exact ⟨row'[j], by simp [grid_read, h2, List.getElem?_eq_getElem hlt]⟩

/-- What the sampling phases write: the run returns; the cell `(i, j)` with
`i < p`, `j < q` holds the bit of the pixel `i * step_x * y + j * step_y`, the cell
`(i, q)` the bit of the pixel `i * step_x * y + x - 1`, and the cell `(p, j)` the bit
of the pixel `(x - 1) * y + j * step_y`; the corner `(p, q)` and the cells beyond
row `p` or column `q` are as before. -/
theorem sample_phase_spec (cm : List ppm_image) (sx sy sigma N : Nat) (st : shared_state)
    (hN : 1 ≤ N) (hsx : 0 < sx) (hsy : 0 < sy)
    (hlen : st.image.data.length = st.image.x * st.image.y) (hx : 0 < st.image.x)
    (hright : ∀ i, i < st.image.x / sx →
      i * sx * st.image.y + st.image.x ≤ st.image.x * st.image.y)
    (hgrid : grid_holds st.grid (st.image.x / sx) (st.image.y / sy)) :
    ∃ g', run_phase f_sample cm sx sy sigma N st = some { st with grid := g' } ∧
      same_shape st.grid g' ∧
      (∀ i j, i < st.image.x / sx → j < st.image.y / sy →
        ∃ px, st.image.data[i * sx * st.image.y + j * sy]? = some px ∧
          grid_read g' i j = some (classify px sigma)) ∧
      (∀ i, i < st.image.x / sx →
        ∃ px, st.image.data[i * sx * st.image.y + st.image.x - 1]? = some px ∧
          grid_read g' i (st.image.y / sy) = some (classify px sigma)) ∧
      (∀ j, j < st.image.y / sy →
        ∃ px, st.image.data[(st.image.x - 1) * st.image.y + j * sy]? = some px ∧
          grid_read g' (st.image.x / sx) j = some (classify px sigma)) ∧
      (∀ i j, (st.image.x / sx < i ∨ st.image.y / sy < j ∨
          (i = st.image.x / sx ∧ j = st.image.y / sy)) →
        grid_read g' i j = grid_read st.grid i j) := by
  have hR : ∀ i, i < st.image.x / sx →
      (((i * sx * st.image.y + st.image.x : Nat) : Int) - 1) =
        ((i * sx * st.image.y + st.image.x - 1 : Nat) : Int) := by
    intro i _
    omega
  have hB : ∀ j : Nat, ((st.image.x : Int) - 1) * (st.image.y : Int) + ((j * sy : Nat) : Int) =
      (((st.image.x - 1) * st.image.y + j * sy : Nat) : Int) := by
    intro j
    push_cast [Nat.cast_sub hx]
    ring
  rw [sample_phase_eq cm sx sy sigma N st hN,
    run_phase_sample_eq cm sx sy sigma 1 st (by omega) (by omega) (by omega)]
  obtain ⟨g', hrun, hshape, hA, hF⟩ := sample_ops_spec st.image sigma
    (phase_ops cm sx sy sigma 1 st.image)
    (sample_source (worker_args cm sx sy sigma 1 0) st.image (st.image.x / sx)
      (st.image.y / sy)) st.grid
    (by
      intro a ha
      rw [phase_ops_single, single_worker_ops] at ha
      simp only [List.mem_append, mem_interior_ops, mem_right_ops, mem_bottom_ops] at ha
      rcases ha with ⟨i, j, _, hi, hj, rfl⟩ | ⟨i, _, hi, rfl⟩ | ⟨j, hj, rfl⟩
      · simp only [sample_source]
        rw [if_neg (by omega), if_neg (by omega)]
      · simp only [sample_source]
        rw [if_pos trivial]
      · simp only [sample_source]
        rw [if_neg (by omega), if_pos trivial])
    (by
      intro a ha
      rw [phase_ops_single, single_worker_ops] at ha
      simp only [List.mem_append, mem_interior_ops, mem_right_ops, mem_bottom_ops] at ha
      rcases ha with ⟨i, j, _, hi, hj, rfl⟩ | ⟨i, _, hi, rfl⟩ | ⟨j, hj, rfl⟩
      · simp only [worker_args, Nat.zero_add] at hi hj ⊢
        rw [read_pixel_nat]
        exact ⟨_, List.getElem?_eq_getElem (by
          rw [hlen]; exact interior_in_bounds hsx hsy hi hj)⟩
      · simp only [worker_args, Nat.zero_add] at hi ⊢
        rw [hR i hi, read_pixel_nat]
        exact ⟨_, List.getElem?_eq_getElem (by
          have := hright i hi
          rw [hlen]; omega)⟩
      · simp only [worker_args] at hj ⊢
        rw [hB j, read_pixel_nat]
        exact ⟨_, List.getElem?_eq_getElem (by
          rw [hlen]; exact bottom_in_bounds hx hsy hj)⟩)
    (by
      intro a ha
      rw [phase_ops_single, single_worker_ops] at ha
      simp only [List.mem_append, mem_interior_ops, mem_right_ops, mem_bottom_ops] at ha
      rcases ha with ⟨i, j, _, hi, hj, rfl⟩ | ⟨i, _, hi, rfl⟩ | ⟨j, hj, rfl⟩
      · simp only [Nat.zero_add] at hi
        obtain ⟨row, hrow, hq⟩ := grid_holds_row hgrid (le_of_lt hi)
        exact ⟨row, hrow, by simp only; omega⟩
      · simp only [Nat.zero_add] at hi
        obtain ⟨row, hrow, hq⟩ := grid_holds_row hgrid (le_of_lt hi)
        exact ⟨row, hrow, hq⟩
      · obtain ⟨row, hrow, hq⟩ := grid_holds_row hgrid (le_refl _)
        exact ⟨row, hrow, by simp only; omega⟩)
  refine ⟨g', by rw [hrun]; rfl, hshape, ?_, ?_, ?_, ?_⟩
  · intro i j hi hj
    have h := hA i j ⟨(((i * sx * st.image.y + j * sy : Nat) : Int), i, j), by
      rw [phase_ops_single, single_worker_ops]
      simp only [List.mem_append, mem_interior_ops]
      exact Or.inl ⟨i, j, Nat.zero_le i, by simpa using hi, hj, rfl⟩, rfl, rfl⟩
    simp only [sample_source, worker_args] at h
    rw [if_neg (by omega), if_neg (by omega), read_pixel_nat] at h
    have hb : i * sx * st.image.y + j * sy < st.image.data.length := by
      rw [hlen]; exact interior_in_bounds hsx hsy hi hj
    refine ⟨_, List.getElem?_eq_getElem hb, ?_⟩
    rw [h, List.getElem?_eq_getElem hb]
    rfl
  · intro i hi
    have h := hA i (st.image.y / sy)
      ⟨((((i * sx * st.image.y + st.image.x : Nat) : Int) - 1), i, st.image.y / sy), by
      rw [phase_ops_single, single_worker_ops]
      simp only [List.mem_append, mem_right_ops]
      exact Or.inr (Or.inl ⟨i, Nat.zero_le i, by simpa using hi, rfl⟩), rfl, rfl⟩
    simp only [sample_source, worker_args] at h
    rw [if_pos trivial, hR i hi, read_pixel_nat] at h
    have hb : i * sx * st.image.y + st.image.x - 1 < st.image.data.length := by
      have := hright i hi
      rw [hlen]; omega
    refine ⟨_, List.getElem?_eq_getElem hb, ?_⟩
    rw [h, List.getElem?_eq_getElem hb]
    rfl
  · intro j hj
    have h := hA (st.image.x / sx) j
      ⟨((((st.image.x : Int) - 1) * (st.image.y : Int) + ((j * sy : Nat) : Int)),
        st.image.x / sx, j), by
      rw [phase_ops_single, single_worker_ops]
      simp only [List.mem_append, mem_bottom_ops]
      exact Or.inr (Or.inr ⟨j, hj, rfl⟩), rfl, rfl⟩
    simp only [sample_source, worker_args] at h
    rw [if_neg (by omega), if_pos trivial, hB j, read_pixel_nat] at h
    have hb : (st.image.x - 1) * st.image.y + j * sy < st.image.data.length := by
      rw [hlen]; exact bottom_in_bounds hx hsy hj
    refine ⟨_, List.getElem?_eq_getElem hb, ?_⟩
    rw [h, List.getElem?_eq_getElem hb]
    rfl
  · intro i j hij
    apply hF
    intro a ha
    rw [phase_ops_single, single_worker_ops] at ha
    simp only [List.mem_append, mem_interior_ops, mem_right_ops, mem_bottom_ops] at ha
    rcases ha with ⟨i', j', _, hi', hj', rfl⟩ | ⟨i', _, hi', rfl⟩ | ⟨j', hj', rfl⟩ <;>
      simp only <;> omega

/-! ## The stamping phase after the sampling phases -/

/-- The sampling phases leave the image alone and keep the shape of the grid. -/
theorem sample_phase_frame {cm : List ppm_image} {sx sy sigma N : Nat} {st st1 : shared_state}
    (hN : 1 ≤ N) (h : run_phase f_sample cm sx sy sigma N st = some st1) :
    st1.image = st.image ∧ st1.new_image = st.new_image ∧ same_shape st.grid st1.grid := by
  by_cases hg : sx = 0 ∨ sy = 0
  · exfalso
    obtain ⟨n, rfl⟩ : ∃ n, N = n + 1 := ⟨N - 1, by omega⟩
    have h0 : f_sample (worker_args cm sx sy sigma (n + 1) 0) st = none := by
      rcases hg with h | h <;> simp [f_sample, worker_args, h]
    simp [run_phase, for_loop, h0] at h
  · have hx : sx ≠ 0 := fun h => hg (Or.inl h)
    have hy : sy ≠ 0 := fun h => hg (Or.inr h)
    rw [run_phase_sample_eq cm sx sy sigma N st hx hy (by omega)] at h
    cases hrun : run_ops (run_sample st.image sigma) (phase_ops cm sx sy sigma N st.image)
        st.grid with
    | none => rw [hrun] at h; cases h
    | some g' =>
      rw [hrun] at h
      simp only [Option.map_some', Option.some.injEq] at h
      subst h
      refine ⟨rfl, rfl, ?_⟩
      refine run_ops_preserves (run_sample st.image sigma) (fun g => same_shape st.grid g) _ ?_
        st.grid g' (same_shape_refl _) hrun
      intro a _ s s' hs hstep
      simp only [run_sample, sample_point] at hstep
      cases hr : read_pixel st.image.data a.1 with
      | none => rw [hr] at hstep; cases hstep
      | some px =>
        rw [hr] at hstep
        exact same_shape_write hs hstep

theorem cell_pattern_some {args : function_arguments} {grid : List (List Nat)} {i j : Nat}
    {g00 g01 g11 g10 : Nat} (h1 : grid_read grid i j = some g00)
    (h2 : grid_read grid i (j + 1) = some g01) (h3 : grid_read grid (i + 1) (j + 1) = some g11)
    (h4 : grid_read grid (i + 1) j = some g10) :
    cell_pattern args grid i j = args.contour_map[contour_index g00 g01 g11 g10]? := by
  simp only [cell_pattern, h1, h2, h3, h4]

theorem square_read_in_bounds {s a b : Nat} (ha : a < s) (hb : b < s) : s * a + b < s * s := by
  have h : s * (a + 1) ≤ s * s := Nat.mul_le_mul_left s ha
  rw [Nat.mul_add, Nat.mul_one] at h
  omega

/-- What the stamping phase writes. At the barrier the grid cells `(i, j)` with
`i ≤ p`, `j ≤ q` can be read, every configuration is below 16, the 16 patterns are
squares of `step_x = step_y` pixels and the image buffer has `x * y` pixels. Then
the phase returns, keeps the grid and the dimensions, leaves in every cell the
pixels of the pattern of its configuration, and changes no pixel outside the
cells. -/
theorem stamp_phase_spec (cm : List ppm_image) (sx sy sigma N : Nat) (st1 : shared_state)
    (hN : 1 ≤ N) (hsx : 0 < sx) (hsq : sx = sy)
    (hlen : st1.image.data.length = st1.image.x * st1.image.y)
    (hreads : ∀ i j, i ≤ st1.image.x / sx → j ≤ st1.image.y / sy →
      ∃ v, grid_read st1.grid i j = some v)
    (hmap : cm.length = CONTOUR_CONFIG_COUNT)
    (hpat : ∀ pat ∈ cm, pat.x = sx ∧ pat.y = sy ∧ pat.data.length = sx * sy)
    (hk : ∀ i j g00 g01 g11 g10, i < st1.image.x / sx → j < st1.image.y / sy →
      grid_read st1.grid i j = some g00 → grid_read st1.grid i (j + 1) = some g01 →
      grid_read st1.grid (i + 1) (j + 1) = some g11 → grid_read st1.grid (i + 1) j = some g10 →
      8 * g00 + 4 * g01 + 2 * g11 + 1 * g10 < CONTOUR_CONFIG_COUNT) :
    ∃ img', run_phase f_stamp cm sx sy sigma N st1 = some { st1 with image := img' } ∧
      img'.x = st1.image.x ∧ img'.y = st1.image.y ∧
      img'.data.length = st1.image.data.length ∧
      (∀ i j, i < st1.image.x / sx → j < st1.image.y / sy →
        ∃ g00 g01 g11 g10 pat,
          grid_read st1.grid i j = some g00 ∧ grid_read st1.grid i (j + 1) = some g01 ∧
          grid_read st1.grid (i + 1) (j + 1) = some g11 ∧
          grid_read st1.grid (i + 1) j = some g10 ∧
          cm[8 * g00 + 4 * g01 + 2 * g11 + 1 * g10]? = some pat ∧
          ∀ a b, a < sx → b < sy → ∃ px, pat.data[a * pat.y + b]? = some px ∧
            img'.data[(i * sx + a) * st1.image.y + j * sy + b]? = some px) ∧
      (∀ n, (∀ i j a b, i < st1.image.x / sx → j < st1.image.y / sy → a < sx → b < sy →
          n ≠ (i * sx + a) * st1.image.y + j * sy + b) →
        img'.data[n]? = st1.image.data[n]?) := by
  have hcell : ∀ i j, i < st1.image.x / sx → j < st1.image.y / sy →
      ∃ g00 g01 g11 g10 pat,
        grid_read st1.grid i j = some g00 ∧ grid_read st1.grid i (j + 1) = some g01 ∧
        grid_read st1.grid (i + 1) (j + 1) = some g11 ∧
        grid_read st1.grid (i + 1) j = some g10 ∧
        cm[8 * g00 + 4 * g01 + 2 * g11 + 1 * g10]? = some pat ∧
        cell_pattern (worker_args cm sx sy sigma 1 0) st1.grid i j = some pat ∧
        pat.x = sx ∧ pat.y = sy ∧ pat.data.length = sx * sy := by
    intro i j hi hj
    obtain ⟨g00, h1⟩ := hreads i j (by omega) (by omega)
    obtain ⟨g01, h2⟩ := hreads i (j + 1) (by omega) (by omega)
    obtain ⟨g11, h3⟩ := hreads (i + 1) (j + 1) (by omega) (by omega)
    obtain ⟨g10, h4⟩ := hreads (i + 1) j (by omega) (by omega)
    have hlt := hk i j g00 g01 g11 g10 hi hj h1 h2 h3 h4
    have hlt' : 8 * g00 + 4 * g01 + 2 * g11 + 1 * g10 < cm.length := by rw [hmap]; exact hlt
    have hidx : contour_index g00 g01 g11 g10 = 8 * g00 + 4 * g01 + 2 * g11 + 1 * g10 := by
      unfold contour_index
      apply Nat.mod_eq_of_lt
      unfold CONTOUR_CONFIG_COUNT at hlt
      omega
    have hp := hpat _ (List.getElem_mem hlt')
    refine ⟨g00, g01, g11, g10, cm[8 * g00 + 4 * g01 + 2 * g11 + 1 * g10], h1, h2, h3, h4,
      List.getElem?_eq_getElem hlt', ?_, hp⟩
    rw [cell_pattern_some h1 h2 h3 h4, hidx]
    exact List.getElem?_eq_getElem hlt'
  have hsy : 0 < sy := by omega
  obtain ⟨img', hrun, h1, h2, h3, h4, h5⟩ := stamp_rows_spec
    (worker_args cm sx sy sigma 1 0) st1.grid st1.image (st1.image.x / sx) (st1.image.y / sy)
    (by
      rw [hlen]
      exact Nat.mul_le_mul_right _ (Nat.div_mul_le_self _ _))
    (Nat.div_mul_le_self _ _)
    (by
      intro i j hi hj
      obtain ⟨g00, g01, g11, g10, pat, _, _, _, _, _, hcp, hpx, hpy, hpl⟩ := hcell i j hi hj
      refine ⟨pat, hcp, hpx, hpy, ?_⟩
      intro a b ha hb
      rw [hpl, hpx]
      rw [hpx] at ha
      rw [hpy, ← hsq] at hb
      rw [← hsq]
      exact square_read_in_bounds ha hb)
  refine ⟨img', ?_, h1, h2, h3, ?_, h5⟩
  · rw [run_phase_stamp_eq cm sx sy sigma N st1 (by omega) (by omega) hN, hrun]
    rfl
  · intro i j hi hj
    obtain ⟨g00, g01, g11, g10, pat, r1, r2, r3, r4, hlook, hcp, hpx, hpy, hpl⟩ :=
      hcell i j hi hj
    refine ⟨g00, g01, g11, g10, pat, r1, r2, r3, r4, hlook, ?_⟩
    intro a b ha hb
    have hcopy := h4 i j pat hi hj hcp a b ha hb
    simp only [worker_args] at hcopy
    have hin : a * pat.y + b < pat.data.length := by
      have := square_read_in_bounds ha (show b < sx by omega)
      rw [hpl, hpy, ← hsq, Nat.mul_comm a sx]
      exact this
    refine ⟨pat.data[a * pat.y + b], List.getElem?_eq_getElem hin, ?_⟩
    rw [hcopy, ← List.getElem?_eq_getElem hin, hpy, ← hsq, Nat.mul_comm sx a]

theorem classify_le_one (px : ppm_pixel) (sigma : Nat) : classify px sigma ≤ 1 := by
  unfold classify
  simp only
  split_ifs <;> omega

/-- The sampling phases followed by the stamping phase return, and keep the
dimensions of the image, when the image has at least one row and a buffer of
`x * y` pixels, the reads of the second sampling loop are inside the buffer, the
grid has the rows `0 .. p` and the columns `0 .. q`, the corner cell `(p, q)`, which
the sampling phases leave as it is, holds 0 or 1, and the 16 patterns are squares of
`step_x = step_y` pixels. -/
theorem sample_and_stamp_returns (cm : List ppm_image) (sx sy sigma N : Nat)
    (st : shared_state) (hN : 1 ≤ N) (hsx : 0 < sx) (hsq : sx = sy)
    (hlen : st.image.data.length = st.image.x * st.image.y) (hx : 0 < st.image.x)
    (hright : ∀ i, i < st.image.x / sx →
      i * sx * st.image.y + st.image.x ≤ st.image.x * st.image.y)
    (hgrid : grid_holds st.grid (st.image.x / sx) (st.image.y / sy))
    (hcorner : ∀ v, grid_read st.grid (st.image.x / sx) (st.image.y / sy) = some v → v ≤ 1)
    (hmap : cm.length = CONTOUR_CONFIG_COUNT)
    (hpat : ∀ pat ∈ cm, pat.x = sx ∧ pat.y = sy ∧ pat.data.length = sx * sy) :
    ∃ st', sample_and_stamp cm sx sy sigma N st = some st' ∧
      st'.image.x = st.image.x ∧ st'.image.y = st.image.y ∧
      st'.image.data.length = st.image.data.length := by
  have hsy : 0 < sy := by omega
  obtain ⟨g', hrun, hshape, hI, hR, hB, hF⟩ :=
    sample_phase_spec cm sx sy sigma N st hN hsx hsy hlen hx hright hgrid
  have hbit : ∀ i j v, i ≤ st.image.x / sx → j ≤ st.image.y / sy →
      grid_read g' i j = some v → v ≤ 1 := by
    intro i j v hi hj hv
    rcases Nat.lt_or_ge i (st.image.x / sx) with hi' | hi'
    · rcases Nat.lt_or_ge j (st.image.y / sy) with hj' | hj'
      · obtain ⟨px, _, h⟩ := hI i j hi' hj'
        rw [h] at hv
        cases hv
        exact classify_le_one px sigma
      · have hjq : j = st.image.y / sy := by omega
        subst hjq
        obtain ⟨px, _, h⟩ := hR i hi'
        rw [h] at hv
        cases hv
        exact classify_le_one px sigma
    · have hip : i = st.image.x / sx := by omega
      subst hip
      rcases Nat.lt_or_ge j (st.image.y / sy) with hj' | hj'
      · obtain ⟨px, _, h⟩ := hB j hj'
        rw [h] at hv
        cases hv
        exact classify_le_one px sigma
      · have hjq : j = st.image.y / sy := by omega
        subst hjq
        rw [hF _ _ (Or.inr (Or.inr ⟨rfl, rfl⟩))] at hv
        exact hcorner v hv
  obtain ⟨img', hstamp, h1, h2, h3, _, _⟩ := stamp_phase_spec cm sx sy sigma N
    { st with grid := g' } hN hsx hsq hlen
    (fun i j hi hj => grid_read_of_shape hgrid hshape hi hj) hmap hpat
    (by
      intro i j g00 g01 g11 g10 hi hj r1 r2 r3 r4
      have b1 := hbit i j g00 (by simp only at hi; omega) (by simp only at hj; omega) r1
      have b2 := hbit i (j + 1) g01 (by simp only at hi; omega) (by simp only at hj; omega) r2
      have b3 := hbit (i + 1) (j + 1) g11 (by simp only at hi; omega)
        (by simp only at hj; omega) r3
      have b4 := hbit (i + 1) j g10 (by simp only at hi; omega) (by simp only at hj; omega) r4
      unfold CONTOUR_CONFIG_COUNT
      omega)
  exact ⟨{ image := img', new_image := st.new_image, grid := g' },
    by simp only [sample_and_stamp, hrun, hstamp], h1, h2, h3⟩

/-- The rescale loops of the workers return when the target buffer has room for
`x * y` pixels; they write to the target buffer only and keep its length. -/
theorem rescale_phase_spec (sample_bicubic : ppm_image → Nat → Nat → Nat → Nat → ppm_pixel)
    (cm : List ppm_image) (sx sy sigma N : Nat) (st : shared_state) (hN : 1 ≤ N)
    (hroom : st.new_image.x * st.new_image.y ≤ st.new_image.data.length) :
    ∃ st1, run_phase (f_rescale sample_bicubic) cm sx sy sigma N st = some st1 ∧
      st1.image = st.image ∧ st1.grid = st.grid ∧ st1.new_image.x = st.new_image.x ∧
      st1.new_image.y = st.new_image.y ∧
      st1.new_image.data.length = st.new_image.data.length := by
  unfold run_phase
  rw [for_loop_eq_run_ops]
  obtain ⟨st1, hrun, h⟩ := run_ops_inv
    (fun (i : Nat) (s : shared_state) =>
      f_rescale sample_bicubic (worker_args cm sx sy sigma N i) s)
    (fun (_ : List Nat) (s : shared_state) => s.image = st.image ∧ s.grid = st.grid ∧
      s.new_image.x = st.new_image.x ∧ s.new_image.y = st.new_image.y ∧
      s.new_image.data.length = st.new_image.data.length)
    (List.range' 0 N) st ⟨rfl, rfl, rfl, rfl, rfl⟩
    (by
      intro pre t post s _ ⟨hi, hg, hx, hy, hl⟩
      have hn : N ≠ 0 := by omega
      simp only [f_rescale, worker_args, hn, if_false]
      rw [nested_loop_eq_run_ops (fun i j data' => write_pixel data' (i * s.new_image.y + j)
        (sample_bicubic s.image i j s.new_image.x s.new_image.y))]
      obtain ⟨d, hd, hlen⟩ := run_ops_inv
        (fun (c : Nat × Nat) (data' : List ppm_pixel) =>
          write_pixel data' (c.1 * s.new_image.y + c.2)
            (sample_bicubic s.image c.1 c.2 s.new_image.x s.new_image.y))
        (fun (_ : List (Nat × Nat)) (data' : List ppm_pixel) =>
          data'.length = s.new_image.data.length)
        (cells (start t s.new_image.x N) (end_ t s.new_image.x N - start t s.new_image.x N)
          s.new_image.y) s.new_image.data rfl
        (by
          intro pre' c post' data' hl' hlen'
          have hc : c ∈ cells (start t s.new_image.x N)
              (end_ t s.new_image.x N - start t s.new_image.x N) s.new_image.y := by
            rw [hl']; simp
          rw [mem_cells] at hc
          have hend : end_ t s.new_image.x N ≤ s.new_image.x := by
            unfold end_
            simp only
            split_ifs <;> omega
          have hroom' : s.new_image.x * s.new_image.y ≤ s.new_image.data.length := by
            rw [hx, hy, hl]; exact hroom
          have hc1 : c.1 < s.new_image.x := by omega
          have hrow := cell_bound (s := s.new_image.y) hc1
          have hidx : c.1 * s.new_image.y + c.2 < data'.length := by
            rw [hlen']
            omega
          exact ⟨data'.set (c.1 * s.new_image.y + c.2)
            (sample_bicubic s.image c.1 c.2 s.new_image.x s.new_image.y),
            by simp only [write_pixel, hidx, if_true],
            by show (data'.set _ _).length = _; rw [List.length_set]; exact hlen'⟩)
      refine ⟨{ s with new_image := { s.new_image with data := d } }, by rw [hd], hi, hg, hx,
        hy, ?_⟩
      show d.length = _
      rw [hlen, hl])
  exact ⟨st1, hrun, h⟩

/-! ## The positions that `update_image` writes -/

theorem update_pixel_index (contour image : ppm_image) (x y i j : Nat) :
    update_pixel contour x y i j image =
      (contour.data[contour.x * i + j]?).bind (fun px =>
        (write_pixel image.data (image_pixel_index image x y i j) px).map
          (fun data' => { image with data := data' })) := by
  unfold update_pixel image_pixel_index
  simp only
  cases h1 : contour.data[contour.x * i + j]? with
  | none => simp only [Option.none_bind]
  | some px =>
    simp only [Option.some_bind]
    cases h2 : write_pixel image.data ((x + i) * image.y + y + j) px with
    | none => simp only [Option.map_none']
    | some d => simp only [Option.map_some']

theorem mem_written_indices {image contour : ppm_image} {x y n : Nat} :
    n ∈ written_indices image contour x y ↔
      ∃ i j, i < contour.x ∧ j < contour.y ∧ n = image_pixel_index image x y i j := by
  simp only [written_indices, List.mem_map, mem_cells, Nat.zero_add]
  constructor
  · rintro ⟨c, ⟨_, h1, h2⟩, rfl⟩
    exact ⟨c.1, c.2, h1, h2, rfl⟩
  · rintro ⟨i, j, h1, h2, rfl⟩
    exact ⟨(i, j), ⟨Nat.zero_le i, h1, h2⟩, rfl⟩

/-- A run of `update_image` that returns keeps the dimensions and the length of
the buffer, and changes no position that is not among `written_indices`. -/
theorem update_image_frame {image contour image' : ppm_image} {x y : Nat}
    (h : update_image image contour x y = some image') :
    image'.x = image.x ∧ image'.y = image.y ∧ image'.data.length = image.data.length ∧
      ∀ n, n ∉ written_indices image contour x y → image'.data[n]? = image.data[n]? := by
  rw [update_image_eq] at h
  have hinv := run_ops_preserves
    (fun (c : Nat × Nat) (img : ppm_image) => update_pixel contour x y c.1 c.2 img)
    (fun img => img.x = image.x ∧ img.y = image.y ∧
      img.data.length = image.data.length ∧
      ∀ n, n ∉ written_indices image contour x y → img.data[n]? = image.data[n]?)
    (cells 0 contour.x contour.y)
    (by
      intro c hc s s' ⟨hx, hy, hlen, hframe⟩ hstep
      have hstep : update_pixel contour x y c.1 c.2 s = some s' := hstep
      rw [update_pixel_index] at hstep
      cases hpx : contour.data[contour.x * c.1 + c.2]? with
      | none => rw [hpx] at hstep; cases hstep
      | some px =>
        rw [hpx] at hstep
        simp only [Option.some_bind] at hstep
        unfold write_pixel at hstep
        by_cases hlt : image_pixel_index s x y c.1 c.2 < s.data.length
        · rw [if_pos hlt] at hstep
          simp only [Option.map_some', Option.some.injEq] at hstep
          subst hstep
          refine ⟨hx, hy, by simp [hlen], ?_⟩
          intro n hn
          have hne : image_pixel_index s x y c.1 c.2 ≠ n := by
            intro heq
            apply hn
            rw [mem_cells] at hc
            rw [mem_written_indices]
            refine ⟨c.1, c.2, by omega, hc.2.2, ?_⟩
            rw [← heq]
            simp only [image_pixel_index, hy]
          show (s.data.set (image_pixel_index s x y c.1 c.2) px)[n]? = image.data[n]?
          rw [List.getElem?_set_ne hne]
          exact hframe n hn
        · rw [if_neg hlt] at hstep
          cases hstep)
    image image' ⟨rfl, rfl, rfl, fun _ _ => rfl⟩ h
  exact hinv

theorem f_stamp_cells (args : function_arguments) (st : shared_state)
    (hx : args.step_x ≠ 0) (hy : args.step_y ≠ 0) (hn : args.number_threads ≠ 0) :
    f_stamp args st =
      (run_ops (fun c img => stamp_cell args st.grid c.1 c.2 img) (worker_cells args st.image)
        st.image).map (fun im => { st with image := im }) := by
  rw [f_stamp_eq]
  unfold stamp_worker worker_cells
  simp only [hx, hy, hn, or_self, if_false]
  rw [stamp_rows_eq]

/-- Two workers stamp cells of different rows. -/
theorem worker_cells_rows {cm : List ppm_image} {sx sy sigma N t t' : Nat} {image : ppm_image}
    {c c' : Nat × Nat} (hN : 1 ≤ N) (ht : t < N) (hlt : t < t')
    (hc : c ∈ worker_cells (worker_args cm sx sy sigma N t) image)
    (hc' : c' ∈ worker_cells (worker_args cm sx sy sigma N t') image) : c.1 < c'.1 := by
  simp only [worker_cells, worker_args, mem_cells] at hc hc'
  have h1 := end_eq_start_succ (image.x / sx) N t hN ht
  have h2 := start_mono (image.x / sx) N (show t + 1 ≤ t' from hlt)
  omega

/-- A worker other than worker 0 leaves the last grid row `p` as it is. -/
theorem f_sample_last_row {args : function_arguments} {s s' : shared_state}
    (ht : args.thread_id ≠ 0) (h : f_sample args s = some s') (j : Nat) :
    grid_read s'.grid (s.image.x / args.step_x) j =
      grid_read s.grid (s.image.x / args.step_x) j := by
  by_cases hg : args.step_x = 0 ∨ args.step_y = 0 ∨ args.number_threads = 0
  · simp [f_sample, hg] at h
  · have hx : args.step_x ≠ 0 := fun e => hg (Or.inl e)
    have hy : args.step_y ≠ 0 := fun e => hg (Or.inr (Or.inl e))
    have hn : args.number_threads ≠ 0 := fun e => hg (Or.inr (Or.inr e))
    rw [f_sample_eq args s hx hy hn] at h
    cases hrun : run_ops (run_sample s.image args.sigma) (worker_ops args s.image) s.grid with
    | none => rw [hrun] at h; cases h
    | some g' =>
      rw [hrun] at h
      simp only [Option.map_some', Option.some.injEq] at h
      subst h
      refine run_ops_preserves (run_sample s.image args.sigma)
        (fun g => grid_read g (s.image.x / args.step_x) j =
          grid_read s.grid (s.image.x / args.step_x) j)
        (worker_ops args s.image) ?_ s.grid g' rfl hrun
      intro a ha g g₁ hinv hstep
      have hrow : a.2.1 < s.image.x / args.step_x := by
        have hend : end_ args.thread_id (s.image.x / args.step_x) args.number_threads ≤
            s.image.x / args.step_x := by
          unfold end_
          simp only
          split_ifs <;> omega
        simp only [worker_ops, ht, if_false, List.append_nil, List.mem_append,
          mem_interior_ops, mem_right_ops] at ha
        rcases ha with ⟨i, j', h1, h2, _, rfl⟩ | ⟨i, h1, h2, rfl⟩ <;> simp only <;> omega
      simp only [run_sample, sample_point] at hstep
      cases hr : read_pixel s.image.data a.1 with
      | none => rw [hr] at hstep; cases hstep
      | some px =>
        rw [hr] at hstep
        rw [grid_read_write hstep, if_neg (by omega)]
        exact hinv

/-! ## The margin of the image -/

/-- Every cell of the sampled grid but the corner holds 0 or 1, and the corner
holds what it held before. -/
theorem sampled_bits {sx sy sigma : Nat} {st : shared_state} {g' : List (List Nat)}
    (hI : ∀ i j, i < st.image.x / sx → j < st.image.y / sy →
      ∃ px, st.image.data[i * sx * st.image.y + j * sy]? = some px ∧
        grid_read g' i j = some (classify px sigma))
    (hR : ∀ i, i < st.image.x / sx →
      ∃ px, st.image.data[i * sx * st.image.y + st.image.x - 1]? = some px ∧
        grid_read g' i (st.image.y / sy) = some (classify px sigma))
    (hB : ∀ j, j < st.image.y / sy →
      ∃ px, st.image.data[(st.image.x - 1) * st.image.y + j * sy]? = some px ∧
        grid_read g' (st.image.x / sx) j = some (classify px sigma))
    (hF : ∀ i j, (st.image.x / sx < i ∨ st.image.y / sy < j ∨
        (i = st.image.x / sx ∧ j = st.image.y / sy)) →
      grid_read g' i j = grid_read st.grid i j)
    (hcorner : ∀ v, grid_read st.grid (st.image.x / sx) (st.image.y / sy) = some v → v ≤ 1)
    (i j v : Nat) (hi : i ≤ st.image.x / sx) (hj : j ≤ st.image.y / sy)
    (hv : grid_read g' i j = some v) : v ≤ 1 := by
  rcases Nat.lt_or_ge i (st.image.x / sx) with hi' | hi'
  · rcases Nat.lt_or_ge j (st.image.y / sy) with hj' | hj'
    · obtain ⟨px, _, h⟩ := hI i j hi' hj'
      rw [h] at hv
      cases hv
      exact classify_le_one px sigma
    · have hjq : j = st.image.y / sy := by omega
      subst hjq
      obtain ⟨px, _, h⟩ := hR i hi'
      rw [h] at hv
      cases hv
      exact classify_le_one px sigma
  · have hip : i = st.image.x / sx := by omega
    subst hip
    rcases Nat.lt_or_ge j (st.image.y / sy) with hj' | hj'
    · obtain ⟨px, _, h⟩ := hB j hj'
      rw [h] at hv
      cases hv
      exact classify_le_one px sigma
    · have hjq : j = st.image.y / sy := by omega
      subst hjq
      rw [hF _ _ (Or.inr (Or.inr ⟨rfl, rfl⟩))] at hv
      exact hcorner v hv

/-- The sampling phases followed by the stamping phase return, keep the
dimensions of the image and change no pixel of a row at or beyond
`(x / step_x) * step_x` or of a column at or beyond `(y / step_y) * step_y`. -/
theorem sample_and_stamp_margin (cm : List ppm_image) (sx sy sigma N : Nat)
    (st : shared_state) (hN : 1 ≤ N) (hsx : 0 < sx) (hsq : sx = sy)
    (hlen : st.image.data.length = st.image.x * st.image.y) (hx : 0 < st.image.x)
    (hright : ∀ i, i < st.image.x / sx →
      i * sx * st.image.y + st.image.x ≤ st.image.x * st.image.y)
    (hgrid : grid_holds st.grid (st.image.x / sx) (st.image.y / sy))
    (hcorner : ∀ v, grid_read st.grid (st.image.x / sx) (st.image.y / sy) = some v → v ≤ 1)
    (hmap : cm.length = CONTOUR_CONFIG_COUNT)
    (hpat : ∀ pat ∈ cm, pat.x = sx ∧ pat.y = sy ∧ pat.data.length = sx * sy) :
    ∃ st', sample_and_stamp cm sx sy sigma N st = some st' ∧
      st'.image.x = st.image.x ∧ st'.image.y = st.image.y ∧
      st'.image.data.length = st.image.data.length ∧
      ∀ r c, c < st.image.y →
        (st.image.x / sx * sx ≤ r ∨ st.image.y / sy * sy ≤ c) →
        st'.image.data[r * st.image.y + c]? = st.image.data[r * st.image.y + c]? := by
  have hsy : 0 < sy := by omega
  obtain ⟨g', hrun, hshape, hI, hR, hB, hF⟩ :=
    sample_phase_spec cm sx sy sigma N st hN hsx hsy hlen hx hright hgrid
  obtain ⟨img', hstamp, h1, h2, h3, _, h5⟩ := stamp_phase_spec cm sx sy sigma N
    { st with grid := g' } hN hsx hsq hlen
    (fun i j hi hj => grid_read_of_shape hgrid hshape hi hj) hmap hpat
    (by
      intro i j g00 g01 g11 g10 hi hj r1 r2 r3 r4
      simp only at hi hj r1 r2 r3 r4
      have b1 := sampled_bits hI hR hB hF hcorner i j g00 (by omega) (by omega) r1
      have b2 := sampled_bits hI hR hB hF hcorner i (j + 1) g01 (by omega) (by omega) r2
      have b3 := sampled_bits hI hR hB hF hcorner (i + 1) (j + 1) g11 (by omega) (by omega) r3
      have b4 := sampled_bits hI hR hB hF hcorner (i + 1) j g10 (by omega) (by omega) r4
      unfold CONTOUR_CONFIG_COUNT
      omega)
  refine ⟨{ image := img', new_image := st.new_image, grid := g' },
    by simp only [sample_and_stamp, hrun, hstamp], h1, h2, h3, ?_⟩
  intro r c hc hout
  apply h5
  intro i j a b hi hj ha hb heq
  simp only at hi hj heq
  have hq := Nat.div_mul_le_self st.image.y sy
  have hcj := cell_bound (s := sy) hj
  have hci := cell_bound (s := sx) hi
  have := @row_col_inj st.image.y r (i * sx + a) c (j * sy + b) hc (by omega) (by omega)
  omega

/-! ## Partition coverage -/

/-- C1: for `N ≥ 1` workers and `T` units, every index below `T` lies in the range
`[start t, end_ t)` of exactly one worker `t < N`, and no worker's range holds an
index that is not below `T`. -/
theorem partition_coverage (N T : Nat) (hN : 1 ≤ N) :
    (∀ k, k < T → ∃! t, t < N ∧ start t T N ≤ k ∧ k < end_ t T N) ∧
    (∀ t k, t < N → start t T N ≤ k → k < end_ t T N → k < T) := by
  constructor
  · intro k hk
    have hex : ∃ t, k < start (t + 1) T N := ⟨N - 1, by
      rw [Nat.sub_add_cancel hN, start_total T N hN]; exact hk⟩
    have hfind := Nat.find_spec hex
    have hle : Nat.find hex ≤ N - 1 := Nat.find_min' hex (by
      rw [Nat.sub_add_cancel hN, start_total T N hN]; exact hk)
    have hlt : Nat.find hex < N := by omega
    refine ⟨Nat.find hex, ⟨hlt, ?_, ?_⟩, ?_⟩
    · rcases Nat.eq_zero_or_pos (Nat.find hex) with h0 | hpos
      · rw [h0, start_zero]; exact Nat.zero_le k
      · have hmin := Nat.find_min hex (m := Nat.find hex - 1) (by omega)
        rw [Nat.sub_add_cancel hpos] at hmin
        omega
    · rw [end_eq_start_succ T N _ hN hlt]; exact hfind
    · rintro t ⟨ht, hst, hen⟩
      rw [end_eq_start_succ T N t hN ht] at hen
      have h1 : Nat.find hex ≤ t := Nat.find_min' hex hen
      rcases Nat.lt_or_ge (Nat.find hex) t with hlt' | hge
      · have := start_mono T N (show Nat.find hex + 1 ≤ t from hlt')
        omega
      · omega
  · intro t k ht _ hen
    rw [end_eq_start_succ T N t hN ht] at hen
    have := start_le_total T N (t + 1) hN ht
    omega

/-- Three workers sharing seven units. -/
theorem partition_coverage_witness :
    1 ≤ 3 ∧ ((∀ k, k < 7 → ∃! t, t < 3 ∧ start t 7 3 ≤ k ∧ k < end_ t 7 3) ∧
    (∀ t k, t < 3 → start t 7 3 ≤ k → k < end_ t 7 3 → k < 7)) :=
  ⟨by decide, partition_coverage 3 7 (by decide)⟩

/-! ## Determinism across thread counts -/

/-- C2: with `N ≥ 1` workers, the sampling phases followed after the barrier by the
stamping phase leave the shared memory, and so the final image, exactly as a single
worker leaves it, for every image, pattern set, step sizes, `sigma` and initial grid
contents; for an image within the rescale threshold the image that the threads
hand back to `main` is therefore the same for `N` workers and for one. -/
theorem determinism (sample_bicubic : ppm_image → Nat → Nat → Nat → Nat → ppm_pixel)
    (contour_map : List ppm_image) (step_x step_y sigma N : Nat) (st : shared_state)
    (hN : 1 ≤ N) :
    sample_and_stamp contour_map step_x step_y sigma N st =
        sample_and_stamp contour_map step_x step_y sigma 1 st ∧
      (needs_rescale st.image = false →
        run_threads sample_bicubic contour_map step_x step_y sigma N st =
          run_threads sample_bicubic contour_map step_x step_y sigma 1 st) := by
  have h : sample_and_stamp contour_map step_x step_y sigma N st =
      sample_and_stamp contour_map step_x step_y sigma 1 st := by
    unfold sample_and_stamp
    rw [sample_phase_eq contour_map step_x step_y sigma N st hN]
    cases run_phase f_sample contour_map step_x step_y sigma 1 st with
    | none => rfl
    | some st1 => exact stamp_phase_eq contour_map step_x step_y sigma N st1 hN
  refine ⟨h, fun hr => ?_⟩
  have hn : N ≠ 0 := by omega
  simp only [run_threads, hr, hn, if_false, h, one_ne_zero, Bool.false_eq_true]

/-- The image `example_image` sampled with steps of 2 and stamped by four workers
and by one. -/
theorem determinism_witness :
    1 ≤ 4 ∧
      (sample_and_stamp (example_patterns 2) 2 2 128 4
          (main_state example_image [] [[0, 0, 0], [0, 0, 0], [0, 0, 0]]) =
        sample_and_stamp (example_patterns 2) 2 2 128 1
          (main_state example_image [] [[0, 0, 0], [0, 0, 0], [0, 0, 0]]) ∧
       (needs_rescale (main_state example_image [] [[0, 0, 0], [0, 0, 0], [0, 0, 0]]).image =
          false →
        run_threads (fun _ _ _ _ _ => ⟨0, 0, 0⟩) (example_patterns 2) 2 2 128 4
            (main_state example_image [] [[0, 0, 0], [0, 0, 0], [0, 0, 0]]) =
          run_threads (fun _ _ _ _ _ => ⟨0, 0, 0⟩) (example_patterns 2) 2 2 128 1
            (main_state example_image [] [[0, 0, 0], [0, 0, 0], [0, 0, 0]]))) :=
  ⟨by decide, determinism (fun _ _ _ _ _ => ⟨0, 0, 0⟩) (example_patterns 2) 2 2 128 4
    (main_state example_image [] [[0, 0, 0], [0, 0, 0], [0, 0, 0]]) (by decide)⟩

/-! ## Stamping result -/

/-- C3: let `st1` be the shared memory that the sampling phases of `N ≥ 1` workers
produce. When the image buffer has `x * y` pixels, the grid has the rows
`0 .. x / step_x` and the columns `0 .. y / step_y`, the 16 patterns are squares of
`step_x = step_y` pixels and the configuration `k = 8 * grid[i][j] + 4 * grid[i][j + 1] +
2 * grid[i + 1][j + 1] + 1 * grid[i + 1][j]` of every cell of the sampled grid is one
of the 16 pattern indices, the stamping phase returns, and for every cell `(i, j)`
with `i < x / step_x`, `j < y / step_y` the pixel of row `i * step_x + a` and column
`j * step_y + b` of the final image is the pixel of row `a` and column `b` of
`contour_map[k]`. -/
theorem stamping_result (contour_map : List ppm_image) (step_x step_y sigma N : Nat)
    (st st1 : shared_state) (hN : 1 ≤ N) (hstep : 0 < step_x) (hsq : step_x = step_y)
    (hsample : run_phase f_sample contour_map step_x step_y sigma N st = some st1)
    (hlen : st.image.data.length = st.image.x * st.image.y)
    (hgrid : grid_holds st.grid (st.image.x / step_x) (st.image.y / step_y))
    (hmap : contour_map.length = CONTOUR_CONFIG_COUNT)
    (hpat : ∀ pat ∈ contour_map,
      pat.x = step_x ∧ pat.y = step_y ∧ pat.data.length = step_x * step_y)
    (hk : ∀ i j g00 g01 g11 g10, i < st.image.x / step_x → j < st.image.y / step_y →
      grid_read st1.grid i j = some g00 → grid_read st1.grid i (j + 1) = some g01 →
      grid_read st1.grid (i + 1) (j + 1) = some g11 → grid_read st1.grid (i + 1) j = some g10 →
      8 * g00 + 4 * g01 + 2 * g11 + 1 * g10 < CONTOUR_CONFIG_COUNT) :
    ∃ st2, sample_and_stamp contour_map step_x step_y sigma N st = some st2 ∧
      st2.grid = st1.grid ∧ st2.image.x = st.image.x ∧ st2.image.y = st.image.y ∧
      ∀ i j, i < st.image.x / step_x → j < st.image.y / step_y →
        ∃ g00 g01 g11 g10 pat,
          grid_read st1.grid i j = some g00 ∧ grid_read st1.grid i (j + 1) = some g01 ∧
          grid_read st1.grid (i + 1) (j + 1) = some g11 ∧
          grid_read st1.grid (i + 1) j = some g10 ∧
          contour_map[8 * g00 + 4 * g01 + 2 * g11 + 1 * g10]? = some pat ∧
          ∀ a b, a < step_x → b < step_y → ∃ px, pat.data[a * pat.y + b]? = some px ∧
            st2.image.data[(i * step_x + a) * st.image.y + j * step_y + b]? = some px := by
  obtain ⟨himg, _, hshape⟩ := sample_phase_frame hN hsample
  rw [← himg] at hlen hgrid hk
  obtain ⟨img', hrun, h1, h2, _, h4, _⟩ := stamp_phase_spec contour_map step_x step_y sigma N
    st1 hN hstep hsq hlen
    (fun i j hi hj => grid_read_of_shape (himg ▸ hgrid) hshape (himg ▸ hi) (himg ▸ hj))
    hmap hpat hk
  refine ⟨{ st1 with image := img' }, ?_, rfl, h1.trans (by rw [himg]),
    h2.trans (by rw [himg]), ?_⟩
  · simp only [sample_and_stamp, hsample, hrun]
  · intro i j hi hj
    rw [← himg] at hi hj ⊢
    exact h4 i j hi hj

/-- The image `example_image` sampled with steps of 2 and `sigma = 128` and stamped
by two workers, from a grid of zeros. -/
theorem stamping_result_witness :
    ∃ st2, sample_and_stamp (example_patterns 2) 2 2 128 2
        (main_state example_image [] [[0, 0, 0], [0, 0, 0], [0, 0, 0]]) = some st2 ∧
      st2.grid = [[1, 0, 0], [0, 1, 0], [0, 1, 0]] ∧ st2.image.x = 4 ∧ st2.image.y = 4 ∧
      ∀ i j, i < 4 / 2 → j < 4 / 2 →
        ∃ g00 g01 g11 g10 pat,
          grid_read [[1, 0, 0], [0, 1, 0], [0, 1, 0]] i j = some g00 ∧
          grid_read [[1, 0, 0], [0, 1, 0], [0, 1, 0]] i (j + 1) = some g01 ∧
          grid_read [[1, 0, 0], [0, 1, 0], [0, 1, 0]] (i + 1) (j + 1) = some g11 ∧
          grid_read [[1, 0, 0], [0, 1, 0], [0, 1, 0]] (i + 1) j = some g10 ∧
          (example_patterns 2)[8 * g00 + 4 * g01 + 2 * g11 + 1 * g10]? = some pat ∧
          ∀ a b, a < 2 → b < 2 → ∃ px, pat.data[a * pat.y + b]? = some px ∧
            st2.image.data[(i * 2 + a) * 4 + j * 2 + b]? = some px :=
  stamping_result (example_patterns 2) 2 2 128 2
    (main_state example_image [] [[0, 0, 0], [0, 0, 0], [0, 0, 0]])
    { main_state example_image [] [[0, 0, 0], [0, 0, 0], [0, 0, 0]] with
      grid := [[1, 0, 0], [0, 1, 0], [0, 1, 0]] }
    (by decide) (by decide) rfl (by decide) (by decide)
    ⟨by decide, by decide⟩ (by decide) (by decide)
    (by
      intro i j g00 g01 g11 g10 hi hj h1 h2 h3 h4
      have hi' : i < 2 := hi
      have hj' : j < 2 := hj
      interval_cases i <;> interval_cases j <;>
        simp [grid_read] at h1 h2 h3 h4 <;> subst h1 h2 h3 h4 <;> decide)

/-! ## Classification -/

/-- C4: when the pixel read by the sampler has its channels in `0..255` and `sigma`
is in `0..255`, the sampler writes to the grid the bit `0` if the mean
`(red + green + blue) / 3` is greater than `sigma`, and the bit `1` otherwise. -/
theorem classification (image : ppm_image) (sigma : Nat) (idx : Int) (i j : Nat)
    (grid : List (List Nat)) (curr_pixel : ppm_pixel)
    (hread : read_pixel image.data idx = some curr_pixel)
    (hr : curr_pixel.red ≤ 255) (hg : curr_pixel.green ≤ 255) (hb : curr_pixel.blue ≤ 255)
    (_hs : sigma ≤ 255) :
    sample_point image sigma idx i j grid =
      grid_write grid i j
        (if (curr_pixel.red + curr_pixel.green + curr_pixel.blue) / 3 > sigma then 0 else 1) := by
  have hmean : (curr_pixel.red + curr_pixel.green + curr_pixel.blue) / 3 % 256 =
      (curr_pixel.red + curr_pixel.green + curr_pixel.blue) / 3 := by
    apply Nat.mod_eq_of_lt
    omega
  simp only [sample_point, hread, classify, hmean]

/-- A one-pixel image whose pixel has mean 200, sampled with `sigma = 100`. -/
theorem classification_witness :
    sample_point ⟨1, 1, [⟨250, 200, 150⟩]⟩ 100 0 0 0 [[7]] =
      grid_write [[7]] 0 0 (if (250 + 200 + 150) / 3 > 100 then 0 else 1) :=
  classification ⟨1, 1, [⟨250, 200, 150⟩]⟩ 100 0 0 0 [[7]] ⟨250, 200, 150⟩ (by decide)
    (by decide) (by decide) (by decide) (by decide)

/-- C5, as stated, fails: the pixel `(100, 100, 100)` has bit `0` at the threshold
`50` and bit `1` at the larger threshold `150`, so raising the threshold flipped the
bit from unset to set. -/
theorem classify_mono_counterexample :
    (50 : Nat) ≤ 150 ∧ classify ⟨100, 100, 100⟩ 50 = 0 ∧ classify ⟨100, 100, 100⟩ 150 = 1 := by
  decide

/-- C5, amended: raising the threshold from `sigma1` to `sigma2` can only flip the
bit of a pixel from unset (`0`) to set (`1`): a bit that is `1` at `sigma1` is `1` at
`sigma2`, and a bit that is `0` at `sigma2` was `0` at `sigma1`. -/
theorem classify_mono (px : ppm_pixel) (sigma1 sigma2 : Nat) (h : sigma1 ≤ sigma2) :
    (classify px sigma1 = 1 → classify px sigma2 = 1) ∧
    (classify px sigma2 = 0 → classify px sigma1 = 0) := by
  unfold classify
  simp only
  constructor
  · intro h1
    split_ifs at h1 with hc
    rw [if_neg (by omega)]
  · intro h2
    split_ifs at h2 with hc
    rw [if_pos (by omega)]

/-- The pixel `(100, 100, 100)` at the thresholds `120` and `150`. -/
theorem classify_mono_witness :
    (120 : Nat) ≤ 150 ∧
      ((classify ⟨100, 100, 100⟩ 120 = 1 → classify ⟨100, 100, 100⟩ 150 = 1) ∧
       (classify ⟨100, 100, 100⟩ 150 = 0 → classify ⟨100, 100, 100⟩ 120 = 0)) :=
  ⟨by decide, classify_mono ⟨100, 100, 100⟩ 120 150 (by decide)⟩

set_option maxRecDepth 100000

/-! ## Grid population and edge policies -/

/-- C6, the failing run: the black image `dark_image` of 8 by 8 pixels sampled by
two workers with the step `STEP` and the threshold `SIGMA` of `main`, from a grid of
2 by 2 cells that hold the byte 77. The sampling phases return and leave the corner
`grid[1][1]` at 77; the stamping phase then forms the configuration
`(8 + 4 + 2 * 77 + 1) % 256 = 167` for the cell `(0, 0)` and reads `contour_map`
outside its 16 entries. -/
theorem grid_corner_unwritten :
    run_phase f_sample (example_patterns STEP) STEP STEP SIGMA 2
        (main_state dark_image [] [[77, 77], [77, 77]]) =
      some (main_state dark_image [] [[1, 1], [1, 77]]) ∧
    contour_index 1 1 77 1 = 167 ∧
    sample_and_stamp (example_patterns STEP) STEP STEP SIGMA 2
        (main_state dark_image [] [[77, 77], [77, 77]]) = none := by
  decide

/-- C7, the failing run: `wide_image` has 8 rows and 16 columns; sampled with the
step `STEP` and the threshold `SIGMA` of `main`, the cell `grid[0][2]` of the last
grid column holds the bit 0 of the white pixel of column `x - 1 = 7`, not the bit 1
of the black pixel of the last column `y - 1 = 15`. -/
theorem right_edge_wrong_column :
    run_phase f_sample (example_patterns STEP) STEP STEP SIGMA 1
        (main_state wide_image [] [[0, 0, 0], [0, 0, 0]]) =
      some (main_state wide_image [] [[1, 1, 0], [1, 1, 0]]) ∧
    wide_image.data[0 * STEP * wide_image.y + (wide_image.y - 1)]? = some ⟨0, 0, 0⟩ ∧
    classify ⟨0, 0, 0⟩ SIGMA = 1 ∧
    wide_image.data[0 * STEP * wide_image.y + (wide_image.x - 1)]? = some ⟨255, 255, 255⟩ ∧
    classify ⟨255, 255, 255⟩ SIGMA = 0 := by
  decide

/-! ## Rescale trigger -/

/-- C8: for `N ≥ 1` workers the threads return an image that has exactly
`RESCALE_X` rows and `RESCALE_Y` columns if a dimension of the input exceeds its
threshold, and exactly the dimensions of the input otherwise. The run is free of
undefined behaviour, and so returns, under what `main` sets up and `f` relies on:
an input of at least one row with `x * y` pixels, a target buffer of
`RESCALE_X * RESCALE_Y` pixels, a grid of `RESCALE_X / step_x + 1` rows of
`RESCALE_Y / step_y + 1` cells, 16 square patterns of `step_x = step_y` pixels, a
value 0 or 1 in the grid cell that the sampling phases never write, and, without
rescaling, reads of the second sampling loop that stay inside the buffer. -/
theorem rescale_trigger (sample_bicubic : ppm_image → Nat → Nat → Nat → Nat → ppm_pixel)
    (contour_map : List ppm_image) (step_x step_y sigma N : Nat) (image : ppm_image)
    (new_data : List ppm_pixel) (grid : List (List Nat))
    (hN : 1 ≤ N) (hstep : 0 < step_x) (hsq : step_x = step_y)
    (hlen : image.data.length = image.x * image.y) (hx : 0 < image.x)
    (hright : needs_rescale image = false → ∀ i, i < image.x / step_x →
      i * step_x * image.y + image.x ≤ image.x * image.y)
    (hnew : new_data.length = RESCALE_X * RESCALE_Y)
    (hgrid : grid.length = RESCALE_X / step_x + 1 ∧
      ∀ row ∈ grid, row.length = RESCALE_Y / step_y + 1)
    (hcorner : ∀ v,
      grid_read grid ((if needs_rescale image then RESCALE_X else image.x) / step_x)
        ((if needs_rescale image then RESCALE_Y else image.y) / step_y) = some v → v ≤ 1)
    (hmap : contour_map.length = CONTOUR_CONFIG_COUNT)
    (hpat : ∀ pat ∈ contour_map,
      pat.x = step_x ∧ pat.y = step_y ∧ pat.data.length = step_x * step_y) :
    ∃ out, run_threads sample_bicubic contour_map step_x step_y sigma N
        (main_state image new_data grid) = some out ∧
      ((image.x > RESCALE_X ∨ image.y > RESCALE_Y) → out.x = RESCALE_X ∧ out.y = RESCALE_Y) ∧
      (¬ (image.x > RESCALE_X ∨ image.y > RESCALE_Y) → out.x = image.x ∧ out.y = image.y) := by
  have hn : N ≠ 0 := by omega
  have htest : needs_rescale image = true ↔ (image.x > RESCALE_X ∨ image.y > RESCALE_Y) := by
    simp [needs_rescale]
  cases hr : needs_rescale image with
  | true =>
    have hbig := htest.mp hr
    simp only [hr, if_true] at hcorner
    obtain ⟨st1, hres, hi1, hg1, hx1, hy1, hl1⟩ := rescale_phase_spec sample_bicubic
      contour_map step_x step_y sigma N (main_state image new_data grid) hN
      (by simp only [main_state]; omega)
    simp only [main_state] at hi1 hg1 hx1 hy1 hl1
    obtain ⟨st', hrun, h1, h2, _⟩ := sample_and_stamp_returns contour_map step_x step_y sigma N
      { st1 with image := st1.new_image } hN hstep hsq
      (by simp only [hl1, hx1, hy1, hnew])
      (by simp only [hx1, RESCALE_X]; omega)
      (by
        intro i hi
        simp only [hx1, hy1] at hi ⊢
        exact right_in_bounds (by
          unfold RESCALE_X RESCALE_Y
          exact Nat.le_mul_of_pos_left 2048 hstep) hi)
      (by
        simp only [hx1, hy1, hg1]
        exact ⟨by omega, fun row hrow => by have := hgrid.2 row hrow; omega⟩)
      (by simp only [hx1, hy1, hg1]; exact hcorner)
      hmap hpat
    refine ⟨st'.image, ?_, fun _ => ⟨h1.trans hx1, h2.trans hy1⟩, fun h => absurd hbig h⟩
    simp only [run_threads, hn, if_false, main_state, hr, if_true]
    simp only [main_state] at hres
    rw [hres]
    simp only [hrun]
  | false =>
    have hsmall : ¬ (image.x > RESCALE_X ∨ image.y > RESCALE_Y) := by
      rw [← htest, hr]; simp
    simp only [hr, Bool.false_eq_true, if_false] at hcorner
    obtain ⟨st', hrun, h1, h2, _⟩ := sample_and_stamp_returns contour_map step_x step_y sigma N
      (main_state image new_data grid) hN hstep hsq hlen hx (hright hr)
      (by
        simp only [main_state]
        have hp : image.x / step_x ≤ RESCALE_X / step_x := Nat.div_le_div_right (by omega)
        have hq : image.y / step_y ≤ RESCALE_Y / step_y := Nat.div_le_div_right (by omega)
        exact ⟨by omega, fun row hrow => by have := hgrid.2 row hrow; omega⟩)
      hcorner hmap hpat
    refine ⟨st'.image, ?_, fun h => absurd h hsmall, fun _ => ⟨h1, h2⟩⟩
    simp only [run_threads, hn, if_false, main_state, hr, Bool.false_eq_true]
    simp only [main_state] at hrun
    rw [hrun]

/-- An image of 2049 rows and one column, which is rescaled, and the image
`example_image` of 4 rows and 4 columns, which is not: both runs return, the first
an image of 2048 by 2048 pixels, the second one of 4 by 4 pixels. -/
theorem rescale_trigger_witness :
    (∃ out, run_threads (fun _ _ _ _ _ => ⟨0, 0, 0⟩) (example_patterns 8) 8 8 200 4
        (main_state ⟨2049, 1, List.replicate 2049 ⟨0, 0, 0⟩⟩
          (List.replicate (RESCALE_X * RESCALE_Y) ⟨0, 0, 0⟩)
          (List.replicate 257 (List.replicate 257 0))) = some out ∧
      out.x = 2048 ∧ out.y = 2048) ∧
    (∃ out, run_threads (fun _ _ _ _ _ => ⟨0, 0, 0⟩) (example_patterns 2) 2 2 200 4
        (main_state example_image (List.replicate (RESCALE_X * RESCALE_Y) ⟨0, 0, 0⟩)
          (List.replicate 1025 (List.replicate 1025 0))) = some out ∧
      out.x = 4 ∧ out.y = 4) := by
  have hcell : ∀ (n i j v : Nat), i < n → j < n →
      grid_read (List.replicate n (List.replicate n 0)) i j = some v → v ≤ 1 := by
    intro n i j v hi hj hv
    simp only [grid_read, List.getElem?_replicate, hi, hj, if_true, Option.some.injEq] at hv
    omega
  constructor
  · obtain ⟨out, hrun, hbig, _⟩ := rescale_trigger (fun _ _ _ _ _ => ⟨0, 0, 0⟩)
      (example_patterns 8) 8 8 200 4 ⟨2049, 1, List.replicate 2049 ⟨0, 0, 0⟩⟩
      (List.replicate (RESCALE_X * RESCALE_Y) ⟨0, 0, 0⟩)
      (List.replicate 257 (List.replicate 257 0))
      (by decide) (by decide) rfl (List.length_replicate _ _) (by decide)
      (fun h => absurd h (by decide))
      (List.length_replicate _ _)
      ⟨List.length_replicate _ _, fun row hrow => by
        rw [List.eq_of_mem_replicate hrow]; exact List.length_replicate _ _⟩
      (fun v hv => hcell 257 _ _ v (by decide) (by decide) hv)
      (by decide) (by decide)
    exact ⟨out, hrun, hbig (Or.inl (by decide))⟩
  · obtain ⟨out, hrun, _, hsmall⟩ := rescale_trigger (fun _ _ _ _ _ => ⟨0, 0, 0⟩)
      (example_patterns 2) 2 2 200 4 example_image
      (List.replicate (RESCALE_X * RESCALE_Y) ⟨0, 0, 0⟩)
      (List.replicate 1025 (List.replicate 1025 0))
      (by decide) (by decide) rfl (by decide) (by decide)
      (fun _ => by decide)
      (List.length_replicate _ _)
      ⟨List.length_replicate _ _, fun row hrow => by
        rw [List.eq_of_mem_replicate hrow]; exact List.length_replicate _ _⟩
      (fun v hv => hcell 1025 _ _ v (by decide) (by decide) hv)
      (by decide) (by decide)
    exact ⟨out, hrun, hsmall (by decide)⟩

/-! ## Concrete scenario -/

/-- C9, the failing run: the black image of 16 by 16 pixels, steps of 8,
`sigma = 128` and a grid that holds zeros before the run. For one worker and for
four workers alike the sampled grid has a 0 in its corner `grid[2][2]`, so the
cell `(1, 1)` has the configuration 13 and its first pixel, of row 8 and column 8,
is the first pixel `(13, 0, 0)` of pattern 13, not the one of pattern 15. -/
theorem black_scenario_corner :
    run_phase f_sample (example_patterns 8) 8 8 128 1
        (main_state black_image [] [[0, 0, 0], [0, 0, 0], [0, 0, 0]]) =
      some (main_state black_image [] [[1, 1, 1], [1, 1, 1], [1, 1, 0]]) ∧
    run_phase f_sample (example_patterns 8) 8 8 128 4
        (main_state black_image [] [[0, 0, 0], [0, 0, 0], [0, 0, 0]]) =
      some (main_state black_image [] [[1, 1, 1], [1, 1, 1], [1, 1, 0]]) ∧
    (sample_and_stamp (example_patterns 8) 8 8 128 4
        (main_state black_image [] [[0, 0, 0], [0, 0, 0], [0, 0, 0]])).map
      (fun st => st.image.data[8 * 16 + 8]?) = some (some ⟨13, 0, 0⟩) ∧
    (sample_and_stamp (example_patterns 8) 8 8 128 1
        (main_state black_image [] [[0, 0, 0], [0, 0, 0], [0, 0, 0]])).map
      (fun st => st.image.data[8 * 16 + 8]?) = some (some ⟨13, 0, 0⟩) := by
  decide

/-! ## Stamp copies the pattern -/

/-- C10, the failing run: `flat_pattern` has 2 rows of 3 pixels; stamped at the
origin of an image of 2 rows and 3 columns, the pixel of row 1 and column 0 of the
image is the pixel `data[2]` of the pattern, which is its row 0 and column 2, not
the pixel `data[3]` of its row 1 and column 0. -/
theorem stamp_wrong_stride :
    update_image ⟨2, 3, List.replicate 6 ⟨0, 0, 0⟩⟩ flat_pattern 0 0 =
      some ⟨2, 3, [⟨1, 1, 1⟩, ⟨2, 2, 2⟩, ⟨3, 3, 3⟩, ⟨3, 3, 3⟩, ⟨4, 4, 4⟩, ⟨5, 5, 5⟩]⟩ ∧
    flat_pattern.data[1 * flat_pattern.y + 0]? = some ⟨4, 4, 4⟩ := by
  decide

/-! ## Partition balance -/

/-- C19: for `N ≥ 1` workers, `T` units and a worker `t < N`, the bounds that `f`
computes satisfy `start ≤ (t + 1) * T / N ≤ T` before the clamp, so the clamp leaves
the upper bound as it is; the length of the range is `T / N` or the quotient rounded
up, `(T + N - 1) / N`, and the lengths of the ranges of two workers differ by at
most one. -/
theorem partition_balance (N T t : Nat) (hN : 1 ≤ N) (ht : t < N) :
    start t T N ≤ (t + 1) * T / N ∧ (t + 1) * T / N ≤ T ∧
      end_ t T N = (t + 1) * T / N ∧
      (end_ t T N - start t T N = T / N ∨ end_ t T N - start t T N = (T + N - 1) / N) ∧
      ∀ t', t' < N →
        end_ t T N - start t T N ≤ end_ t' T N - start t' T N + 1 ∧
        end_ t' T N - start t' T N ≤ end_ t T N - start t T N + 1 := by
  have hend : ∀ s, s < N → end_ s T N = (s + 1) * T / N := by
    intro s hs
    rw [end_eq_start_succ T N s hN hs]
    rfl
  have hlen : ∀ s, s < N → (end_ s T N - start s T N = T / N ∨
      (0 < T % N ∧ end_ s T N - start s T N = T / N + 1)) := by
    intro s hs
    rw [hend s hs]
    exact range_length N T s hN
  refine ⟨?_, ?_, hend t ht, ?_, ?_⟩
  · exact start_mono T N (Nat.le_succ t)
  · have := start_le_total T N (t + 1) hN ht
    exact this
  · rcases hlen t ht with h | ⟨hr, h⟩
    · exact Or.inl h
    · exact Or.inr (by rw [h, ceil_div_eq hN hr])
  · intro t' ht'
    rcases hlen t ht with h | ⟨_, h⟩ <;> rcases hlen t' ht' with h' | ⟨_, h'⟩ <;>
      rw [h, h'] <;> omega

/-- Worker 1 of 3 workers sharing 7 units. -/
theorem partition_balance_witness :
    start 1 7 3 ≤ (1 + 1) * 7 / 3 ∧ (1 + 1) * 7 / 3 ≤ 7 ∧
      end_ 1 7 3 = (1 + 1) * 7 / 3 ∧
      (end_ 1 7 3 - start 1 7 3 = 7 / 3 ∨ end_ 1 7 3 - start 1 7 3 = (7 + 3 - 1) / 3) ∧
      ∀ t', t' < 3 →
        end_ 1 7 3 - start 1 7 3 ≤ end_ t' 7 3 - start t' 7 3 + 1 ∧
        end_ t' 7 3 - start t' 7 3 ≤ end_ 1 7 3 - start 1 7 3 + 1 :=
  partition_balance 3 7 1 (by decide) (by decide)

/-! ## Pattern index -/

/-- C15: when the four grid cells of a configuration are each 0 or 1, the
configuration `k` that the stamping loop computes is at most 15, so that
`contour_map[k]` is one of the `CONTOUR_CONFIG_COUNT = 16` entries of the pattern
set, and the binary digits of `k` of weight 8, 4, 2 and 1 are `grid[i][j]`,
`grid[i][j + 1]`, `grid[i + 1][j + 1]` and `grid[i + 1][j]`. -/
theorem pattern_index_in_range (contour_map : List ppm_image) (g00 g01 g11 g10 : Nat)
    (hmap : contour_map.length = CONTOUR_CONFIG_COUNT)
    (h00 : g00 ≤ 1) (h01 : g01 ≤ 1) (h11 : g11 ≤ 1) (h10 : g10 ≤ 1) :
    contour_index g00 g01 g11 g10 ≤ 15 ∧
      (∃ pat, contour_map[contour_index g00 g01 g11 g10]? = some pat) ∧
      contour_index g00 g01 g11 g10 / 8 % 2 = g00 ∧
      contour_index g00 g01 g11 g10 / 4 % 2 = g01 ∧
      contour_index g00 g01 g11 g10 / 2 % 2 = g11 ∧
      contour_index g00 g01 g11 g10 % 2 = g10 ∧
      contour_index g00 g01 g11 g10 = 8 * g00 + 4 * g01 + 2 * g11 + g10 := by
  have hk : contour_index g00 g01 g11 g10 = 8 * g00 + 4 * g01 + 2 * g11 + g10 := by
    unfold contour_index
    omega
  have hlt : contour_index g00 g01 g11 g10 < contour_map.length := by
    rw [hmap, hk]
    unfold CONTOUR_CONFIG_COUNT
    omega
  refine ⟨by omega, ⟨_, List.getElem?_eq_getElem hlt⟩, ?_, ?_, ?_, ?_, hk⟩ <;>
    rw [hk] <;> omega

/-- The cells 1, 0, 1, 1 give the configuration 11, binary 1011. -/
theorem pattern_index_in_range_witness :
    contour_index 1 0 1 1 ≤ 15 ∧
      (∃ pat, (example_patterns 8)[contour_index 1 0 1 1]? = some pat) ∧
      contour_index 1 0 1 1 / 8 % 2 = 1 ∧
      contour_index 1 0 1 1 / 4 % 2 = 0 ∧
      contour_index 1 0 1 1 / 2 % 2 = 1 ∧
      contour_index 1 0 1 1 % 2 = 1 ∧
      contour_index 1 0 1 1 = 8 * 1 + 4 * 0 + 2 * 1 + 1 :=
  pattern_index_in_range (example_patterns 8) 1 0 1 1 (by decide) (by decide) (by decide)
    (by decide) (by decide)

/-! ## Stamp region and disjoint writes -/

/-- C11: for an image of `x` rows and `y` columns whose buffer has `x * y` pixels,
steps `step_x, step_y ≥ 1`, a cell `(i, j)` with `i < x / step_x`, `j < y / step_y`
and a pattern of `step_x` by `step_y` pixels, every position that
`update_image(image, pattern, i * step_x, j * step_y)` writes is
`(i * step_x + a) * y + j * step_y + b` with a row `i * step_x + a < x` and a column
`j * step_y + b < y`; it is below `x * y`, and the write is inside the buffer. -/
theorem stamp_region_in_bounds (image pattern : ppm_image) (step_x step_y i j : Nat)
    (_hsx : 1 ≤ step_x) (_hsy : 1 ≤ step_y)
    (hpx : pattern.x = step_x) (hpy : pattern.y = step_y)
    (hlen : image.data.length = image.x * image.y)
    (hi : i < image.x / step_x) (hj : j < image.y / step_y) :
    ∀ n ∈ written_indices image pattern (i * step_x) (j * step_y),
      ∃ a b, a < step_x ∧ b < step_y ∧
        n = (i * step_x + a) * image.y + j * step_y + b ∧
        i * step_x + a < image.x ∧ j * step_y + b < image.y ∧
        n < image.x * image.y ∧
        ∀ px, write_pixel image.data n px = some (image.data.set n px) := by
  intro n hn
  rw [mem_written_indices] at hn
  obtain ⟨a, b, ha, hb, rfl⟩ := hn
  rw [hpx] at ha
  rw [hpy] at hb
  have h1 := div_mul_step hi
  have h2 := div_mul_step hj
  have hrow : i * step_x + a < image.x := by omega
  have hcol : j * step_y + b < image.y := by omega
  have h3 := cell_bound (s := image.y) hrow
  have hlt : image_pixel_index image (i * step_x) (j * step_y) a b < image.x * image.y := by
    unfold image_pixel_index
    omega
  refine ⟨a, b, ha, hb, rfl, hrow, hcol, hlt, ?_⟩
  intro px
  unfold write_pixel
  rw [if_pos (by rw [hlen]; exact hlt)]

/-- The position 9 that is written for the cell `(1, 0)` of `example_image` with
steps of 2 and a pattern of 2 by 2 pixels. -/
theorem stamp_region_in_bounds_witness :
    9 ∈ written_indices example_image (example_pattern 2 5) (1 * 2) (0 * 2) ∧
      ∃ a b, a < 2 ∧ b < 2 ∧
        9 = (1 * 2 + a) * example_image.y + 0 * 2 + b ∧
        1 * 2 + a < example_image.x ∧ 0 * 2 + b < example_image.y ∧
        9 < example_image.x * example_image.y ∧
        ∀ px, write_pixel example_image.data 9 px = some (example_image.data.set 9 px) :=
  ⟨by decide, stamp_region_in_bounds example_image (example_pattern 2 5) 2 2 1 0 (by decide)
    (by decide) rfl rfl (by decide) (by decide) (by decide) 9 (by decide)⟩

/-- C12: with patterns of `step_x` by `step_y` pixels, the positions of the image
buffer that the stamping phase writes for two different cells `(i, j)` and
`(i', j')` with `j, j' < y / step_y` are different positions; and so are the positions
written by two different workers `t, t' < N`, whose cells are the cells
`worker_cells` of their row ranges. -/
theorem stamp_writes_disjoint (contour_map : List ppm_image) (step_x step_y sigma N : Nat)
    (image : ppm_image) (hN : 1 ≤ N) :
    (∀ i j i' j' (pat pat' : ppm_image),
        pat.x = step_x → pat.y = step_y → pat'.x = step_x → pat'.y = step_y →
        j < image.y / step_y → j' < image.y / step_y → (i, j) ≠ (i', j') →
        ∀ n, n ∈ written_indices image pat (i * step_x) (j * step_y) →
          n ∉ written_indices image pat' (i' * step_x) (j' * step_y)) ∧
      (∀ t t', t < N → t' < N → t ≠ t' →
        ∀ c ∈ worker_cells (worker_args contour_map step_x step_y sigma N t) image,
        ∀ c' ∈ worker_cells (worker_args contour_map step_x step_y sigma N t') image,
        ∀ (pat pat' : ppm_image),
          pat.x = step_x → pat.y = step_y → pat'.x = step_x → pat'.y = step_y →
          ∀ n, n ∈ written_indices image pat (c.1 * step_x) (c.2 * step_y) →
            n ∉ written_indices image pat' (c'.1 * step_x) (c'.2 * step_y)) := by
  have hcells : ∀ i j i' j' (pat pat' : ppm_image),
      pat.x = step_x → pat.y = step_y → pat'.x = step_x → pat'.y = step_y →
      j < image.y / step_y → j' < image.y / step_y → (i, j) ≠ (i', j') →
      ∀ n, n ∈ written_indices image pat (i * step_x) (j * step_y) →
        n ∉ written_indices image pat' (i' * step_x) (j' * step_y) := by
    intro i j i' j' pat pat' hx hy hx' hy' hj hj' hne n hn hn'
    rw [mem_written_indices] at hn hn'
    obtain ⟨a, b, ha, hb, rfl⟩ := hn
    obtain ⟨a', b', ha', hb', heq⟩ := hn'
    rw [hx] at ha
    rw [hy] at hb
    rw [hx'] at ha'
    rw [hy'] at hb'
    unfold image_pixel_index at heq
    have := @cell_pixel_inj image.y step_x step_y (image.y / step_y) i j a b i' j' a' b'
      (Nat.div_mul_le_self _ _) hj hj' ha ha' hb hb' heq
    exact hne (by rw [this.1, this.2.1])
  refine ⟨hcells, ?_⟩
  intro t t' ht ht' hne c hc c' hc' pat pat' hx hy hx' hy'
  have hj : c.2 < image.y / step_y := by
    simp only [worker_cells, worker_args, mem_cells] at hc
    exact hc.2.2
  have hj' : c'.2 < image.y / step_y := by
    simp only [worker_cells, worker_args, mem_cells] at hc'
    exact hc'.2.2
  apply hcells c.1 c.2 c'.1 c'.2 pat pat' hx hy hx' hy' hj hj'
  intro heq
  have h1 : c.1 = c'.1 := congrArg Prod.fst heq
  rcases Nat.lt_or_gt_of_ne hne with hlt | hgt
  · have := worker_cells_rows hN ht hlt hc hc'
    omega
  · have := worker_cells_rows hN ht' hgt hc' hc
    omega

/-- The image `example_image` with steps of 2, patterns of 2 by 2 pixels and two
workers. -/
theorem stamp_writes_disjoint_witness :
    (∀ i j i' j' (pat pat' : ppm_image),
        pat.x = 2 → pat.y = 2 → pat'.x = 2 → pat'.y = 2 →
        j < example_image.y / 2 → j' < example_image.y / 2 → (i, j) ≠ (i', j') →
        ∀ n, n ∈ written_indices example_image pat (i * 2) (j * 2) →
          n ∉ written_indices example_image pat' (i' * 2) (j' * 2)) ∧
      (∀ t t', t < 2 → t' < 2 → t ≠ t' →
        ∀ c ∈ worker_cells (worker_args (example_patterns 2) 2 2 128 2 t) example_image,
        ∀ c' ∈ worker_cells (worker_args (example_patterns 2) 2 2 128 2 t') example_image,
        ∀ (pat pat' : ppm_image),
          pat.x = 2 → pat.y = 2 → pat'.x = 2 → pat'.y = 2 →
          ∀ n, n ∈ written_indices example_image pat (c.1 * 2) (c.2 * 2) →
            n ∉ written_indices example_image pat' (c'.1 * 2) (c'.2 * 2)) :=
  stamp_writes_disjoint (example_patterns 2) 2 2 128 2 example_image (by decide)

/-! ## Stamp frame -/

/-- C17: for a target image, a pattern and an offset `(x, y)` with
`x + pattern.x ≤ image.x` and `y + pattern.y ≤ image.y`, every run of `update_image`
that returns leaves the dimensions of the target and the length of its buffer as
they were and changes no pixel of a row `r` and a column `c < image.y` outside the
rows `x .. x + pattern.x` and the columns `y .. y + pattern.y`; the pattern is an
argument that `update_image` only reads. The run returns when the target buffer
has `image.x * image.y` pixels and the reads `contour->data[contour->x * i + j]` are
inside the buffer of the pattern. -/
theorem stamp_frame (image contour : ppm_image) (x y : Nat)
    (hx : x + contour.x ≤ image.x) (hy : y + contour.y ≤ image.y) :
    (∀ image', update_image image contour x y = some image' →
      image'.x = image.x ∧ image'.y = image.y ∧
      image'.data.length = image.data.length ∧
      ∀ r c, c < image.y →
        ¬ (x ≤ r ∧ r < x + contour.x ∧ y ≤ c ∧ c < y + contour.y) →
        image'.data[r * image.y + c]? = image.data[r * image.y + c]?) ∧
    (image.data.length = image.x * image.y →
      (∀ i j, i < contour.x → j < contour.y → contour.x * i + j < contour.data.length) →
      ∃ image', update_image image contour x y = some image') := by
  constructor
  · intro image' h
    obtain ⟨h1, h2, h3, h4⟩ := update_image_frame h
    refine ⟨h1, h2, h3, ?_⟩
    intro r c hc hout
    apply h4
    intro hmem
    rw [mem_written_indices] at hmem
    obtain ⟨i, j, hi, hj, heq⟩ := hmem
    unfold image_pixel_index at heq
    have := @row_col_inj image.y r (x + i) c (y + j) hc (by omega) (by omega)
    exact hout ⟨by omega, by omega, by omega, by omega⟩
  · intro hlen hread
    obtain ⟨image', h, _⟩ := update_image_spec image contour x y hread hy (by
      rw [hlen]
      exact Nat.mul_le_mul_right _ hx)
    exact ⟨image', h⟩

/-- The pattern 5 of 2 by 2 pixels stamped at the offset `(2, 1)` of
`example_image`: the run returns. -/
theorem stamp_frame_witness :
    ((∀ image', update_image example_image (example_pattern 2 5) 2 1 = some image' →
      image'.x = example_image.x ∧ image'.y = example_image.y ∧
      image'.data.length = example_image.data.length ∧
      ∀ r c, c < example_image.y →
        ¬ (2 ≤ r ∧ r < 2 + (example_pattern 2 5).x ∧ 1 ≤ c ∧ c < 1 + (example_pattern 2 5).y) →
        image'.data[r * example_image.y + c]? = example_image.data[r * example_image.y + c]?) ∧
    (example_image.data.length = example_image.x * example_image.y →
      (∀ i j, i < (example_pattern 2 5).x → j < (example_pattern 2 5).y →
        (example_pattern 2 5).x * i + j < (example_pattern 2 5).data.length) →
      ∃ image', update_image example_image (example_pattern 2 5) 2 1 = some image')) ∧
    (update_image example_image (example_pattern 2 5) 2 1).isSome = true :=
  ⟨stamp_frame example_image (example_pattern 2 5) 2 1 (by decide) (by decide), by decide⟩

/-! ## Interior and bottom-edge sampling -/

/-- C13: for `N ≥ 1` workers and an image with at least one row and a buffer of
`x * y` pixels, the sampling phases return and leave in `grid[i][j]`, for every
`i < x / step_x` and `j < y / step_y`, the classification of the pixel of row
`i * step_x` and column `j * step_y`, whose index is `i * step_x * y + j * step_y`. The
run is free of undefined behaviour, and so returns, when the grid has the rows
`0 .. x / step_x` and the columns `0 .. y / step_y` and the reads of the second
sampling loop stay inside the buffer. -/
theorem interior_sampling (contour_map : List ppm_image) (step_x step_y sigma N : Nat)
    (st : shared_state) (hN : 1 ≤ N) (hsx : 0 < step_x) (hsy : 0 < step_y)
    (hlen : st.image.data.length = st.image.x * st.image.y) (hx : 0 < st.image.x)
    (hright : ∀ i, i < st.image.x / step_x →
      i * step_x * st.image.y + st.image.x ≤ st.image.x * st.image.y)
    (hgrid : grid_holds st.grid (st.image.x / step_x) (st.image.y / step_y)) :
    ∃ st1, run_phase f_sample contour_map step_x step_y sigma N st = some st1 ∧
      st1.image = st.image ∧
      ∀ i j, i < st.image.x / step_x → j < st.image.y / step_y →
        ∃ px, st.image.data[i * step_x * st.image.y + j * step_y]? = some px ∧
          grid_read st1.grid i j = some (classify px sigma) := by
  obtain ⟨g', hrun, _, hI, _⟩ :=
    sample_phase_spec contour_map step_x step_y sigma N st hN hsx hsy hlen hx hright hgrid
  exact ⟨{ st with grid := g' }, hrun, rfl, hI⟩

/-- The image `example_image` sampled with steps of 2 by two workers. -/
theorem interior_sampling_witness :
    ∃ st1, run_phase f_sample (example_patterns 2) 2 2 128 2
        (main_state example_image [] [[7, 7, 7], [7, 7, 7], [7, 7, 7]]) = some st1 ∧
      st1.image = example_image ∧
      ∀ i j, i < 4 / 2 → j < 4 / 2 →
        ∃ px, example_image.data[i * 2 * 4 + j * 2]? = some px ∧
          grid_read st1.grid i j = some (classify px 128) :=
  interior_sampling (example_patterns 2) 2 2 128 2
    (main_state example_image [] [[7, 7, 7], [7, 7, 7], [7, 7, 7]])
    (by decide) (by decide) (by decide) (by decide) (by decide) (by decide)
    ⟨by decide, by decide⟩

/-- C14: for `N ≥ 1` workers the sampling phases return and leave in
`grid[x / step_x][j]`, for every `j < y / step_y`, the classification of the pixel of
the last image row `x - 1` and column `j * step_y`, whose index is
`(x - 1) * y + j * step_y`. These cells are written by worker 0 only: the samples of
the third loop are among the samples of worker 0, and the part of `f` that a worker
with another thread id runs leaves the whole grid row `x / step_x` as it finds it.
The hypotheses are those under which the run is free of undefined behaviour. -/
theorem bottom_edge_policy (contour_map : List ppm_image) (step_x step_y sigma N : Nat)
    (st : shared_state) (hN : 1 ≤ N) (hsx : 0 < step_x) (hsy : 0 < step_y)
    (hlen : st.image.data.length = st.image.x * st.image.y) (hx : 0 < st.image.x)
    (hright : ∀ i, i < st.image.x / step_x →
      i * step_x * st.image.y + st.image.x ≤ st.image.x * st.image.y)
    (hgrid : grid_holds st.grid (st.image.x / step_x) (st.image.y / step_y)) :
    (∃ st1, run_phase f_sample contour_map step_x step_y sigma N st = some st1 ∧
      ∀ j, j < st.image.y / step_y →
        ∃ px, st.image.data[(st.image.x - 1) * st.image.y + j * step_y]? = some px ∧
          grid_read st1.grid (st.image.x / step_x) j = some (classify px sigma)) ∧
    (∀ j, j < st.image.y / step_y →
      ((((st.image.x : Int) - 1) * (st.image.y : Int) + ((j * step_y : Nat) : Int)),
        st.image.x / step_x, j) ∈
        worker_ops (worker_args contour_map step_x step_y sigma N 0) st.image) ∧
    (∀ t s s', t ≠ 0 →
      f_sample (worker_args contour_map step_x step_y sigma N t) s = some s' →
      ∀ j, grid_read s'.grid (s.image.x / step_x) j = grid_read s.grid (s.image.x / step_x) j) := by
  obtain ⟨g', hrun, _, _, _, hB, _⟩ :=
    sample_phase_spec contour_map step_x step_y sigma N st hN hsx hsy hlen hx hright hgrid
  refine ⟨⟨{ st with grid := g' }, hrun, hB⟩, ?_, ?_⟩
  · intro j hj
    simp only [worker_ops, worker_args, if_true, List.mem_append, mem_bottom_ops]
    exact Or.inr (Or.inr ⟨j, hj, rfl⟩)
  · intro t s s' ht h j
    exact @f_sample_last_row (worker_args contour_map step_x step_y sigma N t) s s' ht h j

/-- The image `example_image` sampled with steps of 2 by two workers. -/
theorem bottom_edge_policy_witness :
    (∃ st1, run_phase f_sample (example_patterns 2) 2 2 128 2
        (main_state example_image [] [[7, 7, 7], [7, 7, 7], [7, 7, 7]]) = some st1 ∧
      ∀ j, j < 4 / 2 →
        ∃ px, example_image.data[(4 - 1) * 4 + j * 2]? = some px ∧
          grid_read st1.grid (4 / 2) j = some (classify px 128)) ∧
    (∀ j, j < 4 / 2 →
      ((((4 : Int) - 1) * (4 : Int) + ((j * 2 : Nat) : Int)), 4 / 2, j) ∈
        worker_ops (worker_args (example_patterns 2) 2 2 128 2 0) example_image) ∧
    (∀ t s s', t ≠ 0 →
      f_sample (worker_args (example_patterns 2) 2 2 128 2 t) s = some s' →
      ∀ j, grid_read s'.grid (s.image.x / 2) j = grid_read s.grid (s.image.x / 2) j) :=
  bottom_edge_policy (example_patterns 2) 2 2 128 2
    (main_state example_image [] [[7, 7, 7], [7, 7, 7], [7, 7, 7]])
    (by decide) (by decide) (by decide) (by decide) (by decide) (by decide)
    ⟨by decide, by decide⟩

/-! ## Uncovered margin -/

/-- C18: for an image within the rescale threshold the threads return an image of
the same dimensions in which every pixel of a row `r ≥ (x / step_x) * step_x` or of a
column `c ≥ (y / step_y) * step_y` is the pixel of the input: only pixels of the
`x / step_x` by `y / step_y` full cells are overwritten. The hypotheses are those
under which the run is free of undefined behaviour: an input of at least one row
with `x * y` pixels, reads of the second sampling loop inside the buffer, a grid
with the rows `0 .. x / step_x` and the columns `0 .. y / step_y` whose corner cell
holds 0 or 1, and 16 square patterns of `step_x = step_y` pixels. -/
theorem margin_preserved (sample_bicubic : ppm_image → Nat → Nat → Nat → Nat → ppm_pixel)
    (contour_map : List ppm_image) (step_x step_y sigma N : Nat) (image : ppm_image)
    (new_data : List ppm_pixel) (grid : List (List Nat))
    (hN : 1 ≤ N) (hstep : 0 < step_x) (hsq : step_x = step_y)
    (hsmall : needs_rescale image = false)
    (hlen : image.data.length = image.x * image.y) (hx : 0 < image.x)
    (hright : ∀ i, i < image.x / step_x →
      i * step_x * image.y + image.x ≤ image.x * image.y)
    (hgrid : grid_holds grid (image.x / step_x) (image.y / step_y))
    (hcorner : ∀ v, grid_read grid (image.x / step_x) (image.y / step_y) = some v → v ≤ 1)
    (hmap : contour_map.length = CONTOUR_CONFIG_COUNT)
    (hpat : ∀ pat ∈ contour_map,
      pat.x = step_x ∧ pat.y = step_y ∧ pat.data.length = step_x * step_y) :
    ∃ out, run_threads sample_bicubic contour_map step_x step_y sigma N
        (main_state image new_data grid) = some out ∧
      out.x = image.x ∧ out.y = image.y ∧
      ∀ r c, r < image.x → c < image.y →
        (image.x / step_x * step_x ≤ r ∨ image.y / step_y * step_y ≤ c) →
        ∃ px, image.data[r * image.y + c]? = some px ∧
          out.data[r * image.y + c]? = some px := by
  obtain ⟨st', hrun, h1, h2, _, h4⟩ := sample_and_stamp_margin contour_map step_x step_y
    sigma N (main_state image new_data grid) hN hstep hsq hlen hx hright hgrid hcorner hmap
    hpat
  simp only [main_state] at hrun h1 h2 h4
  refine ⟨st'.image, ?_, h1, h2, ?_⟩
  · have hn : N ≠ 0 := by omega
    simp only [run_threads, hn, if_false, main_state, hsmall, Bool.false_eq_true]
    rw [hrun]
  · intro r c hr hc hout
    have hb := cell_bound (s := image.y) hr
    have hin : r * image.y + c < image.data.length := by
      rw [hlen]
      omega
    exact ⟨image.data[r * image.y + c], List.getElem?_eq_getElem hin, by
      rw [h4 r c hc hout]
      exact List.getElem?_eq_getElem hin⟩

/-- The image `odd_image` of 5 by 5 pixels with steps of 2: the last row and the
last column are not covered by a cell. -/
theorem margin_preserved_witness :
    ∃ out, run_threads (fun _ _ _ _ _ => ⟨0, 0, 0⟩) (example_patterns 2) 2 2 128 2
        (main_state odd_image [] [[0, 0, 0], [0, 0, 0], [0, 0, 0]]) = some out ∧
      out.x = 5 ∧ out.y = 5 ∧
      ∀ r c, r < 5 → c < 5 → (5 / 2 * 2 ≤ r ∨ 5 / 2 * 2 ≤ c) →
        ∃ px, odd_image.data[r * 5 + c]? = some px ∧ out.data[r * 5 + c]? = some px :=
  margin_preserved (fun _ _ _ _ _ => ⟨0, 0, 0⟩) (example_patterns 2) 2 2 128 2 odd_image []
    [[0, 0, 0], [0, 0, 0], [0, 0, 0]] (by decide) (by decide) rfl (by decide) (by decide)
    (by decide) (by decide) ⟨by decide, by decide⟩
    (fun v hv => by
      have h0 : v = 0 := by
        simpa [grid_read, odd_image] using hv.symm
      omega)
    (by decide) (by decide)

/-! ## Sampling reads -/

/-- C16, the failing run: `tall_image` has `x = 72` rows and `y = 8` columns, both at
least `STEP = 8`, a buffer of `x * y = 576` pixels, and is within the rescale
threshold. For the grid row `i = 8` the second sampling loop reads the index
`8 * 8 * 8 + 72 - 1 = 583`, which is not below 576: the read is outside the buffer
and the sampling phases do not return. -/
theorem right_edge_read_outside :
    tall_image.data.length = tall_image.x * tall_image.y ∧
    STEP ≤ tall_image.x ∧ STEP ≤ tall_image.y ∧ needs_rescale tall_image = false ∧
    8 < tall_image.x / STEP ∧
    ((((8 * STEP * tall_image.y + tall_image.x : Nat) : Int) - 1, 8, tall_image.y / STEP) ∈
      phase_ops (example_patterns STEP) STEP STEP SIGMA 1 tall_image) ∧
    ((8 * STEP * tall_image.y + tall_image.x : Nat) : Int) - 1 = 583 ∧
    tall_image.x * tall_image.y = 576 ∧
    read_pixel tall_image.data 583 = none ∧
    run_phase f_sample (example_patterns STEP) STEP STEP SIGMA 1
      (main_state tall_image [] (List.replicate 10 [0, 0])) = none := by
  decide

end MarchingSquares
